import Mathlib

/-!
# Verification of the coddog symbol-fingerprinting core

Shallow embedding of the coddog repository's core (crates/core/src/lib.rs,
crates/core/src/arch.rs, crates/core/src/ingest.rs), of the windowed-submatch
database query (crates/db/src/lib.rs) and of the submatch request validation
(crates/api/src/main.rs), together with theorems settling the frozen claims.

Modelling conventions:
* Rust `u8`/`u16`/`u32`/`u64` values are `Nat`; `i16`/`i32`/`i64` values are
  `Int`, with explicit wrap-around (`% 2^32`, sign adjustment) where the Rust
  code can overflow.
* Rust's `DefaultHasher` (SipHash over a byte stream) is modelled as an
  injective function of the hashed data; since the program only ever compares
  hash values for equality, the model takes the hashed data itself as the hash
  value.  This is the "hash collisions have probability zero" idealization the
  specification itself uses.
* `f32` arithmetic in `diff_symbols` is modelled as exact rational arithmetic
  (with Mathlib's division-by-zero-equals-zero convention).
* The external instruction-decoder libraries (rabbitizer for MIPS, powerpc for
  PPC) are not part of the repository.  Modelled from the spec: the external
  decoder interface of spec section 6, `(word, address) -> (opcode id, typed
  operand list)`, is embedded as a `Decoder` structure over which the
  development is parameterized; operand values are classified exactly as the
  `match` arms of `get_equivalence_hash` in arch.rs classify them.
-/

namespace Coddog

/-! ## Platforms and architectures (crates/core/src/lib.rs) -/

/-- `Arch` from lib.rs: `Mips`, `Ppc`, `Aarch64`. -/
inductive Arch where
  | mips
  | ppc
  | aarch64
deriving DecidableEq, Repr

/-- `Arch::insn_length`: 4 for every variant. -/
def Arch.insnLength : Arch → Nat
  | .mips => 4
  | .ppc => 4
  | .aarch64 => 4

/-- `Platform` from lib.rs. -/
inductive Platform where
  | n64
  | psx
  | ps2
  | gcWii
  | psp
deriving DecidableEq, Repr

/-- Byte order, from the `object` crate's `Endianness`. -/
inductive Endianness where
  | little
  | big
deriving DecidableEq, Repr

/-- `Platform::endianness`. -/
def Platform.endianness : Platform → Endianness
  | .n64 => .big
  | .psx => .little
  | .ps2 => .little
  | .gcWii => .big
  | .psp => .little

/-- `Platform::arch`. -/
def Platform.arch : Platform → Arch
  | .n64 => .mips
  | .psx => .mips
  | .ps2 => .mips
  | .gcWii => .ppc
  | .psp => .mips

/-! ## Byte-level helpers -/

/-- `Endianness::read_u32_bytes` on a 4-byte chunk. -/
def readWord (e : Endianness) (chunk : List Nat) : Nat :=
  match e with
  | .big =>
      chunk.getD 0 0 * 16777216 + chunk.getD 1 0 * 65536 +
        chunk.getD 2 0 * 256 + chunk.getD 3 0
  | .little =>
      chunk.getD 3 0 * 16777216 + chunk.getD 2 0 * 65536 +
        chunk.getD 1 0 * 256 + chunk.getD 0 0

/-- Rust's `slice::chunks_exact(k)`: the `⌊n / k⌋` full consecutive
`k`-element chunks, the remainder dropped. -/
def chunksExact (k : Nat) (bs : List Nat) : List (List Nat) :=
  (List.range (bs.length / k)).map fun i => (bs.drop (i * k)).take k

theorem chunksExact_length (k : Nat) (bs : List Nat) :
    (chunksExact k bs).length = bs.length / k := by
  simp [chunksExact]

/-! ## The external decoder interface (spec section 6)

Modelled from the spec: the external instruction-decoder libraries (rabbitizer,
powerpc) are absent from the repository; per spec section 6 they provide
`(word, address) -> (opcode id, typed operand list)`.  The operand list is
classified into exactly the classes that the `match` statements of
`get_equivalence_hash` (arch.rs) distinguish. -/

/-- A MIPS valued operand, one constructor per behavioural class of the
`ValuedOperand` match in `get_equivalence_hash`:
registers and the wildcard arm are always hashed (`reg`), `core_label` and the
immediates are hashed only without a relocation, `core_branch_target_label` is
always hashed, and `core_imm_rs` keeps only its base register under a
relocation. -/
inductive MOperand where
  | reg (v : Nat)
  | label (v : Nat)
  | immI16 (v : Int)
  | immU16 (v : Nat)
  | branchTarget (v : Int)
  | immRs (imm : Int) (gpr : Nat)
deriving DecidableEq, Repr

/-- A PPC argument, one constructor per behavioural class of the
`powerpc::Argument` match in `get_equivalence_hash`: `Argument::None` is
skipped, `Simm`/`Uimm`/`Offset`/`BranchDest`/`OpaqueU` are hashed only without
a relocation, everything else is always hashed. -/
inductive POperand where
  | pnone
  | preg (v : Nat)
  | pimm (v : Int)
deriving DecidableEq, Repr

/-- The external decoders, per the spec section 6 interface.  The opcode of an
instruction depends only on the instruction word; the operand values may also
depend on the instruction's address (`get_equivalence_hash` decodes each word
at `vram + i * insn_length`, `get_opcodes` at address 0). -/
structure Decoder where
  mipsOpcode : Nat → Nat
  mipsOps : Nat → Nat → List MOperand
  ppcOpcode : Nat → Nat
  ppcOps : Nat → List POperand

/-! ## `get_opcodes` (arch.rs) -/

/-- `get_opcodes`: decode each `insn_length` chunk to its opcode id.  The
`vram`/relocation parameters only matter for the Thumb arm, which no
`Platform` of lib.rs reaches; the unreachable `aarch64` arm yields `[]`. -/
def get_opcodes (D : Decoder) (bytes : List Nat) (p : Platform) : List Nat :=
  match p.arch with
  | .mips => (chunksExact p.arch.insnLength bytes).map fun c =>
      D.mipsOpcode (readWord p.endianness c)
  | .ppc => (chunksExact p.arch.insnLength bytes).map fun c =>
      D.ppcOpcode (readWord p.endianness c)
  | .aarch64 => []

/-! ## Equivalence hash (arch.rs, `get_equivalence_hash`) -/

/-- A relocation record as `get_equivalence_hash` consumes it: the fields
`target_symbol`, `addend`, `flags` form the key of the dense-id map. -/
structure Reloc where
  targetSymbol : String
  addend : Int
  flags : Nat
deriving DecidableEq, Repr

/-- One item fed to the hasher by `get_equivalence_hash`.  Rust's `Hash`
feeds an enum discriminant before its payload, so items of different
constructors hash distinct byte streams; the model keeps them tagged. -/
inductive HashItem where
  | relocId (n : Nat)
  | opcode (n : Nat)
  | mipsOp (o : MOperand)
  | mipsGpr (g : Nat)
  | ppcOp (o : POperand)
deriving DecidableEq, Repr

/-- The items one MIPS valued operand contributes, given whether a relocation
id was hashed for this instruction (`hashed_reloc`). -/
def emitMipsOp (hashedReloc : Bool) : MOperand → List HashItem
  | .reg v => [.mipsOp (.reg v)]
  | .label v => if hashedReloc then [] else [.mipsOp (.label v)]
  | .immI16 v => if hashedReloc then [] else [.mipsOp (.immI16 v)]
  | .immU16 v => if hashedReloc then [] else [.mipsOp (.immU16 v)]
  | .branchTarget v => [.mipsOp (.branchTarget v)]
  | .immRs imm gpr =>
      if hashedReloc then [.mipsGpr gpr] else [.mipsOp (.immRs imm gpr)]

/-- The items one PPC argument contributes. -/
def emitPpcOp (hashedReloc : Bool) : POperand → List HashItem
  | .pnone => []
  | .preg v => [.ppcOp (.preg v)]
  | .pimm v => if hashedReloc then [] else [.ppcOp (.pimm v)]

/-- The items one instruction chunk contributes after the (optional)
relocation id: the opcode, then the operands. -/
def chunkItems (D : Decoder) (p : Platform) (hashedReloc : Bool)
    (word : Nat) (curVram : Nat) : List HashItem :=
  match p.arch with
  | .mips =>
      HashItem.opcode (D.mipsOpcode word) ::
        (D.mipsOps word curVram).flatMap (emitMipsOp hashedReloc)
  | .ppc =>
      HashItem.opcode (D.ppcOpcode word) ::
        (D.ppcOps word).flatMap (emitPpcOp hashedReloc)
  | .aarch64 => []

/-- The key of the `reloc_ids` map in `get_equivalence_hash`. -/
def relocKey (r : Reloc) : String × Int × Nat := (r.targetSymbol, r.addend, r.flags)

/-- `reloc_ids.entry(key).or_insert(reloc_ids.len())`: first-seen keys get
ids 0, 1, 2, … in order of first appearance. -/
def relocIdOf (seen : List (String × Int × Nat)) (key : String × Int × Nat) :
    Nat × List (String × Int × Nat) :=
  match seen.indexOf? key with
  | some i => (i, seen)
  | none => (seen.length, seen ++ [key])

/-- The per-chunk loop of `get_equivalence_hash`, walking the chunk list with
the chunk index and the reloc-id state. -/
def equivStreamGo (D : Decoder) (p : Platform) (relocs : Nat → Option Reloc)
    (vram : Nat) : Nat → List (String × Int × Nat) → List (List Nat) →
    List HashItem
  | _, _, [] => []
  | i, seen, c :: cs =>
    let curVram := vram + i * p.arch.insnLength
    let word := readWord p.endianness c
    match relocs curVram with
    | some r =>
        let idSeen := relocIdOf seen (relocKey r)
        HashItem.relocId idSeen.1 :: chunkItems D p true word curVram ++
          equivStreamGo D p relocs vram (i + 1) idSeen.2 cs
    | none =>
        chunkItems D p false word curVram ++
          equivStreamGo D p relocs vram (i + 1) seen cs

/-- The stream of items `get_equivalence_hash` feeds its hasher; the
equivalence hash is, in the injective-hash model, this stream itself. -/
def get_equivalence_hash (D : Decoder) (bytes : List Nat) (vram : Nat)
    (p : Platform) (relocs : Nat → Option Reloc) : List HashItem :=
  equivStreamGo D p relocs vram 0 [] (chunksExact p.arch.insnLength bytes)

/-! ## `Symbol` and `Symbol::new` (lib.rs) -/

/-- `Symbol` from lib.rs.  In the injective-hash model the three hash fields
hold the hashed data itself. -/
structure Symbol where
  name : String
  bytes : List Nat
  opcodes : List Nat
  vram : Nat
  is_decompiled : Bool
  opcode_hash : List Nat
  equiv_hash : List HashItem
  exact_hash : List Nat
  symbol_idx : Nat
deriving DecidableEq, Repr

/-- `SymbolDef` from lib.rs. -/
structure SymbolDef where
  name : String
  bytes : List Nat
  vram : Nat
  is_decompiled : Bool
  platform : Platform
  symbol_idx : Nat

/-- The `while` loop of `Symbol::new`, with fuel: while the last
`k` bytes exist and are all zero, drop them.  `bs.length` fuel suffices for
`1 ≤ k` since every iteration strictly shortens the list. -/
def trimZeroChunksGo (k : Nat) : Nat → List Nat → List Nat
  | 0, bs => bs
  | fuel + 1, bs =>
    if k ≤ bs.length ∧ bs.drop (bs.length - k) = List.replicate k 0 then
      trimZeroChunksGo k fuel (bs.take (bs.length - k))
    else bs

/-- Trailing-zero trimming of `Symbol::new`. -/
def trimZeroChunks (k : Nat) (bs : List Nat) : List Nat :=
  trimZeroChunksGo k bs.length bs

/-- The empty relocation map (`BTreeMap::default()`). -/
def emptyRelocs : Nat → Option Reloc := fun _ => none

/-- `Symbol::new` from lib.rs: trim trailing zero chunks, then compute the
exact, equivalence and opcode hashes of the trimmed bytes. -/
def Symbol.new (D : Decoder) (d : SymbolDef) (relocations : Nat → Option Reloc) :
    Symbol :=
  let insnLength := d.platform.arch.insnLength
  let bytes := trimZeroChunks insnLength d.bytes
  let exactHash := bytes
  let equivHash := get_equivalence_hash D bytes d.vram d.platform relocations
  let opcodes := get_opcodes D bytes d.platform
  { name := d.name
    bytes := bytes
    opcodes := opcodes
    vram := d.vram
    is_decompiled := d.is_decompiled
    opcode_hash := opcodes
    equiv_hash := equivHash
    exact_hash := exactHash
    symbol_idx := d.symbol_idx }

/-! ## `get_hashes` (lib.rs): the window hasher -/

/-- `get_hashes`: pad the data with default (zero) elements up to the window
size if it is shorter, then hash every window of `window_size` consecutive
elements.  In the injective-hash model each window hash is the window itself. -/
def get_hashes (data : List Nat) (window_size : Nat) : List (List Nat) :=
  let d := if data.length < window_size then
    data ++ List.replicate (window_size - data.length) 0 else data
  (List.range (d.length - window_size + 1)).map fun i =>
    (d.drop i).take window_size

/-- `Symbol::get_opcode_hashes`. -/
def Symbol.get_opcode_hashes (s : Symbol) (window_size : Nat) :
    List (List Nat) :=
  get_hashes s.opcodes window_size

/-! ## `get_submatches` (lib.rs) -/

/-- `InsnSeqMatch` from lib.rs. -/
structure InsnSeqMatch where
  offset1 : Nat
  offset2 : Nat
  length : Nat
deriving DecidableEq, Repr

/-- The `matching_hashes` list of `get_submatches`: the positions of
`hashes_1` whose hash occurs in `hashes_2`, each with the index of the first
occurrence of that hash in `hashes_2`. -/
def matchingHashes (hashes_1 hashes_2 : List (List Nat)) : List InsnSeqMatch :=
  ((List.range hashes_1.length).filter fun i =>
      hashes_2.contains (hashes_1.getD i [])).map fun i =>
    ⟨i, hashes_2.indexOf (hashes_1.getD i []), 1⟩

/-- The grouping loop of `get_submatches`: an element whose `offset1` is the
predecessor's `offset1 + 1` joins the current (last) group, anything else
starts a new group. -/
def groupGo (prev : Nat) (cur : List InsnSeqMatch) :
    List InsnSeqMatch → List (List InsnSeqMatch)
  | [] => [cur]
  | m :: rest =>
    if m.offset1 = prev + 1 then groupGo m.offset1 (cur ++ [m]) rest
    else cur :: groupGo m.offset1 [m] rest

/-- `get_submatches` from lib.rs: group consecutive matching positions and
report each group as one match of length `group.len() + window_size`, with
offsets taken from the group's first element. -/
def get_submatches (hashes_1 hashes_2 : List (List Nat)) (window_size : Nat) :
    List InsnSeqMatch :=
  match matchingHashes hashes_1 hashes_2 with
  | [] => []
  | m :: rest =>
    (groupGo m.offset1 [m] rest).map fun g =>
      ⟨(g.headD ⟨0, 0, 0⟩).offset1, (g.headD ⟨0, 0, 0⟩).offset2,
        g.length + window_size⟩

/-! ## `diff_symbols` (lib.rs): the similarity comparator

`f32` arithmetic is modelled as exact rational arithmetic; Mathlib's
division-by-zero convention (`x / 0 = 0`) stands in for the `NaN` the real
code produces when both opcode vectors are empty. -/

/-- The serialization fed to the distance library: each opcode id
big-endian into two bytes. -/
def serializeOpcodes (ops : List Nat) : List Nat :=
  ops.flatMap fun x => [x / 256, x % 256]

/-- The Levenshtein distance of the `editdistancek` crate: standard unit-cost
edit distance. -/
def levDist (s1 s2 : List Nat) : Nat :=
  levenshtein Levenshtein.defaultCost s1 s2

/-- `editdistancek::edit_distance_bounded`: `some` of the distance when it is
at most the bound, otherwise `none`. -/
def edit_distance_bounded (s1 s2 : List Nat) (bound : Nat) : Option Nat :=
  if levDist s1 s2 ≤ bound then some (levDist s1 s2) else none

/-- `diff_symbols` from lib.rs. -/
def diff_symbols (sym1 sym2 : Symbol) (threshold : ℚ) : ℚ :=
  let l1 := sym1.opcodes.length
  let l2 := sym2.opcodes.length
  let maxEditDist : ℚ := ((l1 + l2 : Nat) : ℚ)
  if ((Nat.dist l1 l2 : ℚ) / maxEditDist) > 1 - threshold then 0
  else
    let s1 := serializeOpcodes sym1.opcodes
    let s2 := serializeOpcodes sym2.opcodes
    let bound := Int.toNat ⌊maxEditDist - maxEditDist * threshold⌋
    match edit_distance_bounded s1 s2 bound with
    | some editDistance =>
        let normalized := (maxEditDist - (editDistance : ℚ)) / maxEditDist
        if normalized = 1 ∧ sym1.bytes ≠ sym2.bytes then 9999 / 10000
        else normalized
    | none => 0

/-! ## MIPS relocation canonicalization (ingest.rs, `get_reloc_data`) -/

/-- The ELF MIPS relocation kinds `get_reloc_data` distinguishes:
`R_MIPS_HI16`, `R_MIPS_LO16`, `R_MIPS_26`, and the wildcard arm. -/
inductive MipsRelocKind where
  | hi16
  | lo16
  | mips26
  | other (code : Nat)
deriving DecidableEq, Repr

/-- One raw relocation record as `get_reloc_data` consumes it, with the
target symbol name already resolved (the `object` crate's symbol-table lookup
of `get_reloc_target` is external). -/
structure RawReloc where
  hasImplicitAddend : Bool
  kind : MipsRelocKind
  targetName : String
  addend : Int
deriving DecidableEq, Repr

/-- `CoddogRel` from ingest.rs. -/
inductive CoddogRel where
  | SymbolTarget (name : String) (addend : Int)
deriving DecidableEq, Repr

/-- Reinterpret an integer as a wrapping 32-bit signed value (`as i32`, and
release-mode wrapping `i32` addition). -/
def i32wrap (z : Int) : Int := (z + 2147483648) % 4294967296 - 2147483648

/-- `as i16 as i32`: sign-extend the low 16 bits. -/
def i16sext (n : Nat) : Int := ((n : Int) + 32768) % 65536 - 32768

/-- `data[addr .. addr+4]` read as a `u32`; `none` models the Rust panic on an
out-of-range slice. -/
def readWordAt (e : Endianness) (data : List Nat) (addr : Nat) : Option Nat :=
  if addr + 4 ≤ data.length then some (readWord e ((data.drop addr).take 4))
  else none

/-- The loop state of the MIPS arm of `get_reloc_data`: `last_hi`,
`last_hi_addend`, and the section's relocation map built so far. -/
structure RelState where
  lastHi : Option Nat
  lastHiAddend : Int
  acc : Nat → Option CoddogRel

/-- `BTreeMap::insert`. -/
def relUpdate (m : Nat → Option CoddogRel) (a : Nat) (r : CoddogRel) :
    Nat → Option CoddogRel :=
  fun x => if x = a then some r else m x

/-- One iteration of the MIPS relocation loop of `get_reloc_data`:
records without implicit addend are skipped; `HI16` remembers its address and
its addend bits shifted up; `LO16` combines the remembered addend with its own
sign-extended low 16 bits, attributes the result to the pending `HI16` address
(if any) and to its own address, and consumes the pending `HI16`;
`R_MIPS_26` records its own target and addend, leaving the pending `HI16`
untouched; every other kind only clears the pending `HI16`. -/
def relocStep (e : Endianness) (data : List Nat) (st : RelState)
    (ar : Nat × RawReloc) : Option RelState :=
  if ar.2.hasImplicitAddend = false then some st
  else
    match ar.2.kind with
    | .hi16 =>
        match readWordAt e data ar.1 with
        | none => none
        | some word =>
            some { st with lastHi := some ar.1,
                           lastHiAddend := i32wrap ((word % 65536) * 65536) }
    | .lo16 =>
        match readWordAt e data ar.1 with
        | none => none
        | some word =>
            let addend := i16sext (word % 65536)
            let fullAddend := i32wrap (st.lastHiAddend + addend)
            let target := CoddogRel.SymbolTarget ar.2.targetName fullAddend
            let acc1 := match st.lastHi with
              | some hiAddr => relUpdate st.acc hiAddr target
              | none => st.acc
            some { lastHi := none, lastHiAddend := st.lastHiAddend,
                   acc := relUpdate acc1 ar.1 target }
    | .mips26 =>
        let target := CoddogRel.SymbolTarget ar.2.targetName ar.2.addend
        some { st with acc := relUpdate st.acc ar.1 target }
    | .other _ => some { st with lastHi := none }

/-- The relocation loop, from an arbitrary state. -/
def relocFold (e : Endianness) (data : List Nat) :
    RelState → List (Nat × RawReloc) → Option RelState
  | st, [] => some st
  | st, ar :: rest =>
    match relocStep e data st ar with
    | some st' => relocFold e data st' rest
    | none => none

/-- The MIPS arm of `get_reloc_data` for one section: fold the relocation
records in order, starting with no pending `HI16` and addend 0, and return
the section's address-keyed relocation map. -/
def get_reloc_data_mips (e : Endianness) (data : List Nat)
    (relocs : List (Nat × RawReloc)) : Option (Nat → Option CoddogRel) :=
  (relocFold e data ⟨none, 0, fun _ => none⟩ relocs).map (·.acc)

/-! ## The windowed submatch query (crates/db/src/lib.rs,
`db_query_windows_by_symbol_id`)

The SQL query is embedded as list operations: `potential_matches` is the
self-join of the `windows` table, the `ROW_NUMBER` sequence trick is realized
by sorting each `(symbol_id, pos_diff)` class by `query_pos` and splitting it
into maximal consecutive runs, and each `ORDER BY` is a sort (Mathlib's
`insertionSort`; SQL prescribes no particular stable algorithm) on the
query's sort key.  The joins to `sources` and `projects` are the functions
`symSource` and `srcProject`. -/

/-- One row of the `windows` table. -/
structure WRow where
  symbol_id : Int
  pos : Int
  hash : Int
deriving DecidableEq, Repr

/-- One output row of the query (`DBWindow` in db/src/lib.rs, ids only). -/
structure DBWindow where
  project_id : Int
  source_id : Int
  symbol_id : Int
  start_query_pos : Int
  start_match_pos : Int
  length : Nat
deriving DecidableEq, Repr

/-- The `potential_matches` CTE: every window of the query symbol paired with
every same-hash window of every other symbol, as `(symbol_id, query_pos,
match_pos)`. -/
def potential_matches (tbl : List WRow) (qid : Int) : List (Int × Int × Int) :=
  tbl.flatMap fun a =>
    if a.symbol_id = qid then
      (tbl.filter fun b => a.hash = b.hash ∧ a.symbol_id ≠ b.symbol_id).map
        fun b => (b.symbol_id, a.pos, b.pos)
    else []

/-- The distinct `(symbol_id, pos_diff)` partitions. -/
def diagKeys (pm : List (Int × Int × Int)) : List (Int × Int) :=
  (pm.map fun r => (r.1, r.2.1 - r.2.2)).dedup

/-- The `query_pos` values of one partition, in the `ROW_NUMBER` window's
order (ascending `query_pos`). -/
def diagQpos (pm : List (Int × Int × Int)) (key : Int × Int) : List Int :=
  List.insertionSort (fun x y => x ≤ y)
    ((pm.filter fun r => r.1 = key.1 ∧ r.2.1 - r.2.2 = key.2).map
      fun r => r.2.1)

/-- Split an ascending list into maximal runs of consecutive values; within a
partition, rows share a `sequence_id = query_pos - ROW_NUMBER()` exactly when
they lie in the same such run. -/
def intRunsGo (prev : Int) (cur : List Int) : List Int → List (List Int)
  | [] => [cur]
  | x :: xs =>
    if x = prev + 1 then intRunsGo x (cur ++ [x]) xs
    else cur :: intRunsGo x [x] xs

/-- The maximal consecutive runs of an ascending list. -/
def intRuns : List Int → List (List Int)
  | [] => []
  | x :: xs => intRunsGo x [x] xs

/-- The `final_sequences` CTE joined with the metadata tables: one row per
run, carrying `MIN(query_pos)`, `MIN(match_pos)` and `COUNT(*)`. -/
def runRows (tbl : List WRow) (symSource srcProject : Int → Int) (qid : Int) :
    List DBWindow :=
  (diagKeys (potential_matches tbl qid)).flatMap fun key =>
    (intRuns (diagQpos (potential_matches tbl qid) key)).map fun g =>
      let sq := g.headD 0
      { project_id := srcProject (symSource key.1)
        source_id := symSource key.1
        symbol_id := key.1
        start_query_pos := sq
        start_match_pos := sq - key.2
        length := g.length }

/-- The query's `ORDER BY project_id, source_id, symbol_id, start_query_pos,
start_match_pos` as a boolean total preorder. -/
def dbRowLe (r s : DBWindow) : Bool :=
  decide (r.project_id < s.project_id ∨ (r.project_id = s.project_id ∧
    (r.source_id < s.source_id ∨ (r.source_id = s.source_id ∧
      (r.symbol_id < s.symbol_id ∨ (r.symbol_id = s.symbol_id ∧
        (r.start_query_pos < s.start_query_pos ∨
          (r.start_query_pos = s.start_query_pos ∧
            r.start_match_pos ≤ s.start_match_pos))))))))

/-- `db_query_windows_by_symbol_id` from db/src/lib.rs: all runs of length at
least `min_seq_len`, ordered by the query's sort key. -/
def db_query_windows_by_symbol_id (tbl : List WRow)
    (symSource srcProject : Int → Int) (qid : Int) (minSeqLen : Int) :
    List DBWindow :=
  List.insertionSort (fun r s => dbRowLe r s = true)
    ((runRows tbl symSource srcProject qid).filter
      fun r => minSeqLen ≤ (r.length : Int))

/-! ## Submatch request validation (crates/api/src/main.rs,
`get_symbol_submatches`) -/

/-- `QueryWindowsRequest` from db/src/symbols.rs. -/
structure QueryWindowsRequest where
  slug : String
  min_length : Int
  page : Int
  size : Int

/-- The four request-validation rejections of `get_symbol_submatches`, in
source order. -/
inductive SubmatchReject where
  | sizeNonPositive
  | pageNegative
  | sizeTooLarge
  | minLengthTooSmall
deriving DecidableEq, Repr

/-- The HTTP status each rejection is returned with:
`StatusCode::BAD_REQUEST` in every case. -/
def submatchRejectStatus : SubmatchReject → Nat := fun _ => 400

/-- The validation prefix of `get_symbol_submatches`, in source order. -/
def validateSubmatchRequest (req : QueryWindowsRequest) (dbWindowSize : Int) :
    Option SubmatchReject :=
  if req.size ≤ 0 then some .sizeNonPositive
  else if req.page < 0 then some .pageNegative
  else if 100 < req.size then some .sizeTooLarge
  else if req.min_length < dbWindowSize then some .minLengthTooSmall
  else none

/-- What `get_symbol_submatches` does with a request: reject it, fail the
slug lookup, or invoke the window query with these arguments. -/
inductive SubmatchOutcome where
  | rejected (status : Nat) (reason : SubmatchReject)
  | notFound
  | windowQuery (symbolId : Int) (minLength : Int) (dbWindowSize : Int)
      (size : Int) (page : Int)
deriving DecidableEq, Repr

/-- `get_symbol_submatches` up to the window query: validate, look the symbol
up by slug, then query windows.  The slug lookup is the external database,
passed as a function. -/
def get_symbol_submatches (req : QueryWindowsRequest) (dbWindowSize : Int)
    (lookupSlug : String → Option Int) : SubmatchOutcome :=
  match validateSubmatchRequest req dbWindowSize with
  | some r => .rejected (submatchRejectStatus r) r
  | none =>
    match lookupSlug req.slug with
    | none => .notFound
    | some id => .windowQuery id req.min_length dbWindowSize req.size req.page

/-! ## Helper lemmas: Levenshtein distance -/

theorem levDist_self (s : List Nat) : levDist s s = 0 := by
  induction s with
  | nil => rfl
  | cons x xs ih =>
    rw [levDist, levenshtein_cons_cons]
    simp only [levDist] at ih
    simp only [Levenshtein.defaultCost_delete, Levenshtein.defaultCost_insert,
      Levenshtein.defaultCost_substitute, eq_self_iff_true, if_true, ih]
    omega

theorem levDist_nil_left (s : List Nat) : levDist [] s = s.length := by
  induction s with
  | nil => rfl
  | cons y ys ih =>
    rw [levDist, levenshtein_nil_cons]
    simp only [levDist] at ih
    simp [Levenshtein.defaultCost_insert, ih]
    omega

theorem levDist_le_append (s r : List Nat) : levDist s (s ++ r) ≤ r.length := by
  induction s with
  | nil => simpa using (levDist_nil_left r).le
  | cons x xs ih =>
    rw [levDist, List.cons_append, levenshtein_cons_cons]
    refine le_trans (le_trans (min_le_right _ _) (min_le_right _ _)) ?_
    simp only [levDist] at ih
    simp only [Levenshtein.defaultCost_substitute, eq_self_iff_true, if_true]
    omega

theorem length_sub_le_levDist :
    ∀ (n : Nat) (s1 s2 : List Nat), s1.length + s2.length ≤ n →
      s2.length - s1.length ≤ levDist s1 s2 := by
  intro n
  induction n with
  | zero =>
    intro s1 s2 h
    cases s1 <;> cases s2 <;> simp_all
  | succ n ih =>
    intro s1 s2 h
    match s1, s2 with
    | [], s2 => rw [levDist_nil_left]; omega
    | x :: xs, [] => simp
    | x :: xs, y :: ys =>
      have h1 := ih xs (y :: ys) (by simp at h ⊢; omega)
      have h2 := ih (x :: xs) ys (by simp at h ⊢; omega)
      have h3 := ih xs ys (by simp at h ⊢; omega)
      rw [levDist, levenshtein_cons_cons]
      simp only [levDist] at h1 h2 h3
      simp only [List.length_cons] at h1 h2 h3 ⊢
      simp only [Levenshtein.defaultCost_delete, Levenshtein.defaultCost_insert,
        Levenshtein.defaultCost_substitute]
      rcases eq_or_ne x y with rfl | hxy
      · rw [if_pos rfl]; omega
      · rw [if_neg hxy]; omega

theorem serializeOpcodes_length (ops : List Nat) :
    (serializeOpcodes ops).length = 2 * ops.length := by
  induction ops with
  | nil => rfl
  | cons x xs ih => simp [serializeOpcodes] at ih ⊢; omega

/-! ## Claim C3 -/

/-- The all-zero decoder, a concrete `Decoder` instance used to build
concrete symbols in counterexamples and witnesses. -/
def D0 : Decoder :=
  { mipsOpcode := fun _ => 0
    mipsOps := fun _ _ => []
    ppcOpcode := fun _ => 0
    ppcOps := fun _ => [] }

/-- The C3 claim as stated: `diff_symbols` maps into `[0, 1]`,
`diff_symbols a a t = 1` for every symbol with non-empty bytes, and a result
of exactly 1 forces byte equality. -/
def similarityClaim : Prop :=
  ∀ (a b : Symbol) (t : ℚ), 0 ≤ t → t ≤ 1 →
    (0 ≤ diff_symbols a b t ∧ diff_symbols a b t ≤ 1) ∧
    (a.bytes ≠ [] → diff_symbols a a t = 1) ∧
    (diff_symbols a b t = 1 → a.bytes = b.bytes)

/-- `edit_distance_bounded` succeeds exactly when the distance is within the
bound. -/
theorem edit_distance_bounded_some {s1 s2 : List Nat} {b : Nat}
    (h : levDist s1 s2 ≤ b) :
    edit_distance_bounded s1 s2 b = some (levDist s1 s2) := if_pos h

/-- `edit_distance_bounded` fails exactly when the distance exceeds the
bound. -/
theorem edit_distance_bounded_none {s1 s2 : List Nat} {b : Nat}
    (h : ¬ levDist s1 s2 ≤ b) :
    edit_distance_bounded s1 s2 b = none := if_neg h

/-- Let-free unfolding of `diff_symbols`. -/
theorem diff_symbols_def (a b : Symbol) (t : ℚ) :
    diff_symbols a b t =
      if ((Nat.dist a.opcodes.length b.opcodes.length : ℚ) /
          ((a.opcodes.length + b.opcodes.length : ℕ) : ℚ)) > 1 - t then 0
      else
        match edit_distance_bounded (serializeOpcodes a.opcodes)
            (serializeOpcodes b.opcodes)
            (Int.toNat ⌊((a.opcodes.length + b.opcodes.length : ℕ) : ℚ) -
              ((a.opcodes.length + b.opcodes.length : ℕ) : ℚ) * t⌋) with
        | some d =>
            if ((((a.opcodes.length + b.opcodes.length : ℕ) : ℚ) - (d : ℚ)) /
                  ((a.opcodes.length + b.opcodes.length : ℕ) : ℚ)) = 1 ∧
                a.bytes ≠ b.bytes then 9999 / 10000
            else ((((a.opcodes.length + b.opcodes.length : ℕ) : ℚ) - (d : ℚ)) /
                  ((a.opcodes.length + b.opcodes.length : ℕ) : ℚ))
        | none => 0 := rfl

/-- When both opcode vectors are empty the guard divides 0 by 0 and the
normalized score divides 0 by 0; the exact-rational model returns 0 (the
real `f32` code returns `NaN`; both differ from 1). -/
theorem diff_symbols_opcodes_nil (a b : Symbol) (t : ℚ) (ht : t ≤ 1)
    (ha : a.opcodes = []) (hb : b.opcodes = []) : diff_symbols a b t = 0 := by
  rw [diff_symbols_def, ha, hb]
  simp only [List.length_nil, Nat.dist_self, Nat.add_zero, Nat.cast_zero,
    zero_div]
  rw [if_neg (by linarith : ¬ ((0:ℚ) > 1 - t))]
  rw [show serializeOpcodes ([] : List Nat) = [] from rfl]
  rw [edit_distance_bounded_some (by rw [levDist_nil_left]; exact Nat.zero_le _)]
  dsimp only
  rw [levDist_nil_left]
  simp

/-- C3 (counterexample): the symbol built by `Symbol::new` from the single
byte `[1]` has non-empty bytes but an empty opcode vector, and comparing it
with itself yields 0, not 1 (the real `f32` code divides 0 by 0 and yields
`NaN`; the exact-rational model yields 0; both differ from 1). -/
theorem similarity_self_counterexample : ¬ similarityClaim := by
  intro h
  have h1 := (h (Symbol.new D0 ⟨"f", [1], 0, false, .n64, 0⟩ emptyRelocs)
    (Symbol.new D0 ⟨"f", [1], 0, false, .n64, 0⟩ emptyRelocs) (1/2)
    (by norm_num) (by norm_num)).2.1
  have h2 := h1 (by decide)
  rw [diff_symbols_opcodes_nil _ _ _ (by norm_num) (by decide) (by decide)] at h2
  norm_num at h2

/-- C3 (amended): with the self-similarity clause restricted to symbols whose
opcode vector is non-empty (equivalently, whose trimmed byte vector holds at
least one full instruction), all three similarity bounds hold:
`diff_symbols` maps into `[0, 1]`, `diff_symbols a a t = 1`, and a result of
exactly 1 forces byte equality. -/
theorem similarity_bounds (a b : Symbol) (t : ℚ) (h0 : 0 ≤ t) (h1 : t ≤ 1) :
    (0 ≤ diff_symbols a b t ∧ diff_symbols a b t ≤ 1) ∧
    (a.opcodes ≠ [] → diff_symbols a a t = 1) ∧
    (diff_symbols a b t = 1 → a.bytes = b.bytes) := by
  refine ⟨?_, ?_, ?_⟩
  · rw [diff_symbols_def]
    by_cases hg : ((Nat.dist a.opcodes.length b.opcodes.length : ℚ) /
        ((a.opcodes.length + b.opcodes.length : ℕ) : ℚ)) > 1 - t
    · rw [if_pos hg]; norm_num
    · rw [if_neg hg]
      by_cases hlev : levDist (serializeOpcodes a.opcodes)
          (serializeOpcodes b.opcodes) ≤
          Int.toNat ⌊((a.opcodes.length + b.opcodes.length : ℕ) : ℚ) -
            ((a.opcodes.length + b.opcodes.length : ℕ) : ℚ) * t⌋
      · rw [edit_distance_bounded_some hlev]
        dsimp only
        by_cases hcl : ((((a.opcodes.length + b.opcodes.length : ℕ) : ℚ) -
            ((levDist (serializeOpcodes a.opcodes)
              (serializeOpcodes b.opcodes) : ℕ) : ℚ)) /
            ((a.opcodes.length + b.opcodes.length : ℕ) : ℚ)) = 1 ∧
            a.bytes ≠ b.bytes
        · rw [if_pos hcl]; norm_num
        · rw [if_neg hcl]
          rcases Nat.eq_zero_or_pos (a.opcodes.length + b.opcodes.length)
            with hL | hL
          · rw [hL]
            norm_num
          · have hM : (0:ℚ) < ((a.opcodes.length + b.opcodes.length : ℕ) : ℚ) := by
              exact_mod_cast hL
            have hbound : ((Int.toNat
                ⌊((a.opcodes.length + b.opcodes.length : ℕ) : ℚ) -
                  ((a.opcodes.length + b.opcodes.length : ℕ) : ℚ) * t⌋ : ℕ) : ℚ) ≤
                ((a.opcodes.length + b.opcodes.length : ℕ) : ℚ) := by
              rcases le_or_lt 0 (((a.opcodes.length + b.opcodes.length : ℕ) : ℚ) -
                  ((a.opcodes.length + b.opcodes.length : ℕ) : ℚ) * t) with hnn | hneg
              · have hfl0 : (0:ℤ) ≤
                    ⌊((a.opcodes.length + b.opcodes.length : ℕ) : ℚ) -
                      ((a.opcodes.length + b.opcodes.length : ℕ) : ℚ) * t⌋ :=
                  Int.le_floor.2 (by exact_mod_cast hnn)
                have heq : ((Int.toNat
                    ⌊((a.opcodes.length + b.opcodes.length : ℕ) : ℚ) -
                      ((a.opcodes.length + b.opcodes.length : ℕ) : ℚ) * t⌋ : ℕ) : ℚ) =
                    ((⌊((a.opcodes.length + b.opcodes.length : ℕ) : ℚ) -
                      ((a.opcodes.length + b.opcodes.length : ℕ) : ℚ) * t⌋ : ℤ) : ℚ) := by
                  exact_mod_cast congrArg (fun z : ℤ => (z : ℚ))
                    (Int.toNat_of_nonneg hfl0)
                rw [heq]
                calc ((⌊((a.opcodes.length + b.opcodes.length : ℕ) : ℚ) -
                        ((a.opcodes.length + b.opcodes.length : ℕ) : ℚ) * t⌋ : ℤ) : ℚ) ≤
                      ((a.opcodes.length + b.opcodes.length : ℕ) : ℚ) -
                        ((a.opcodes.length + b.opcodes.length : ℕ) : ℚ) * t :=
                    Int.floor_le _
                  _ ≤ ((a.opcodes.length + b.opcodes.length : ℕ) : ℚ) := by nlinarith
              · have hlt : ⌊((a.opcodes.length + b.opcodes.length : ℕ) : ℚ) -
                    ((a.opcodes.length + b.opcodes.length : ℕ) : ℚ) * t⌋ < 0 :=
                  Int.floor_lt.2 (by simpa using hneg)
                rw [Int.toNat_of_nonpos (by omega)]
                simpa using hM.le
            have hd : ((levDist (serializeOpcodes a.opcodes)
                (serializeOpcodes b.opcodes) : ℕ) : ℚ) ≤
                ((a.opcodes.length + b.opcodes.length : ℕ) : ℚ) :=
              le_trans (by exact_mod_cast hlev) hbound
            constructor
            · exact div_nonneg (by linarith) hM.le
            · rw [div_le_one hM]
              have hd0 : (0:ℚ) ≤ ((levDist (serializeOpcodes a.opcodes)
                  (serializeOpcodes b.opcodes) : ℕ) : ℚ) := by positivity
              linarith
      · rw [edit_distance_bounded_none hlev]
        norm_num
  · intro hne
    rw [diff_symbols_def]
    have hl : 0 < a.opcodes.length := List.length_pos.2 hne
    have hM : (0 : ℚ) < ((a.opcodes.length + a.opcodes.length : ℕ) : ℚ) := by
      exact_mod_cast Nat.add_pos_left hl _
    rw [if_neg]
    · rw [edit_distance_bounded_some (by rw [levDist_self]; exact Nat.zero_le _)]
      dsimp only
      rw [levDist_self]
      rw [if_neg]
      · rw [Nat.cast_zero, sub_zero, div_self hM.ne']
      · rintro ⟨-, hne2⟩
        exact hne2 rfl
    · simp only [Nat.dist_self, Nat.cast_zero, zero_div]
      push_neg
      linarith
  · rw [diff_symbols_def]
    by_cases hg : ((Nat.dist a.opcodes.length b.opcodes.length : ℚ) /
        ((a.opcodes.length + b.opcodes.length : ℕ) : ℚ)) > 1 - t
    · rw [if_pos hg]; intro h; norm_num at h
    · rw [if_neg hg]
      by_cases hlev : levDist (serializeOpcodes a.opcodes)
          (serializeOpcodes b.opcodes) ≤
          Int.toNat ⌊((a.opcodes.length + b.opcodes.length : ℕ) : ℚ) -
            ((a.opcodes.length + b.opcodes.length : ℕ) : ℚ) * t⌋
      · rw [edit_distance_bounded_some hlev]
        dsimp only
        by_cases hcl : ((((a.opcodes.length + b.opcodes.length : ℕ) : ℚ) -
            ((levDist (serializeOpcodes a.opcodes)
              (serializeOpcodes b.opcodes) : ℕ) : ℚ)) /
            ((a.opcodes.length + b.opcodes.length : ℕ) : ℚ)) = 1 ∧
            a.bytes ≠ b.bytes
        · rw [if_pos hcl]; intro h; norm_num at h
        · rw [if_neg hcl]
          intro hone
          by_contra hbytes
          exact hcl ⟨hone, hbytes⟩
      · rw [edit_distance_bounded_none hlev]
        intro h; norm_num at h

/-! ## Claim C4 -/

/-- The C4 claim as stated: an end-insertion of one opcode into a 10-opcode
vector scores `(10 + 11 - 1) / (10 + 11) = 20/21`. -/
def insertionScoreClaim : Prop :=
  ∀ (a b : Symbol) (t : ℚ) (x : Nat), 0 ≤ t → t ≤ 19/21 →
    a.opcodes.length = 10 → b.opcodes = a.opcodes ++ [x] →
    diff_symbols a b t = 20/21

/-- The computation behind C4: one end-insertion into a 10-opcode vector
costs two byte edits in the two-bytes-per-opcode serialization, so the
normalized score is `(21 - 2) / 21`. -/
theorem diff_symbols_insertion_eq (a b : Symbol) (t : ℚ) (x : Nat) (h0 : 0 ≤ t)
    (h1 : t ≤ 19/21) (hlen : a.opcodes.length = 10)
    (hb : b.opcodes = a.opcodes ++ [x]) :
    diff_symbols a b t = 19/21 := by
  have hlenb : b.opcodes.length = 11 := by rw [hb]; simp [hlen]
  have hd : levDist (serializeOpcodes a.opcodes) (serializeOpcodes b.opcodes) = 2 := by
    have hs : serializeOpcodes b.opcodes =
        serializeOpcodes a.opcodes ++ [x / 256, x % 256] := by
      rw [hb]
      simp [serializeOpcodes]
    have hle : levDist (serializeOpcodes a.opcodes) (serializeOpcodes b.opcodes) ≤ 2 := by
      rw [hs]
      simpa using levDist_le_append (serializeOpcodes a.opcodes) [x / 256, x % 256]
    have hge := length_sub_le_levDist
      ((serializeOpcodes a.opcodes).length + (serializeOpcodes b.opcodes).length)
      (serializeOpcodes a.opcodes) (serializeOpcodes b.opcodes) le_rfl
    rw [serializeOpcodes_length, serializeOpcodes_length, hlen, hlenb] at hge
    omega
  rw [diff_symbols_def, hlen, hlenb]
  have h21 : ((10 + 11 : ℕ) : ℚ) = 21 := by norm_num
  rw [h21]
  have hB : (2 : ℕ) ≤ Int.toNat ⌊(21:ℚ) - 21 * t⌋ := by
    have h2 : (2 : ℤ) ≤ ⌊(21:ℚ) - 21 * t⌋ := by
      rw [Int.le_floor]
      push_cast
      nlinarith
    omega
  rw [if_neg]
  · rw [edit_distance_bounded_some (by rw [hd]; exact hB)]
    dsimp only
    rw [hd]
    rw [if_neg]
    · norm_num
    · rintro ⟨hn, -⟩
      norm_num at hn
  · have hdist : (Nat.dist 10 11 : ℚ) = 1 := by norm_num [Nat.dist]
    rw [hdist]
    push_neg
    rw [div_le_iff₀ (by norm_num : (0:ℚ) < 21)]
    nlinarith

/-- C4 (counterexample): the distance library receives the opcode vectors
serialized two bytes per opcode, so inserting one opcode costs two byte
edits, and `diff_symbols` on a 10-opcode vector and its 11-opcode extension
returns `(21 - 2) / 21 = 19/21 ≈ 0.9048`, not `20/21 ≈ 0.9524`. -/
theorem insertion_score_counterexample : ¬ insertionScoreClaim := by
  intro h
  have := h
    { name := "a", bytes := [1], opcodes := [1, 2, 3, 4, 5, 6, 7, 8, 9, 10],
      vram := 0, is_decompiled := false, opcode_hash := [], equiv_hash := [],
      exact_hash := [], symbol_idx := 0 }
    { name := "b", bytes := [2],
      opcodes := [1, 2, 3, 4, 5, 6, 7, 8, 9, 10, 11], vram := 0,
      is_decompiled := false, opcode_hash := [], equiv_hash := [],
      exact_hash := [], symbol_idx := 0 }
    (1/2) 11 (by norm_num) (by norm_num) (by decide) (by decide)
  rw [diff_symbols_insertion_eq _ _ _ 11 (by norm_num) (by norm_num) (by decide)
    (by decide)] at this
  norm_num at this

/-- C4 (amended): for two symbols whose opcode vectors differ by one
insertion at the end of a 10-opcode vector, and any threshold not above
`19/21` (low enough for neither the length guard nor the distance bound to
fire), `diff_symbols` returns `(10 + 11 - 2) / (10 + 11) = 19/21 ≈ 0.9048`:
the one-opcode insertion costs two byte edits in the serialized encoding. -/
theorem insertion_score (a b : Symbol) (t : ℚ) (x : Nat) (h0 : 0 ≤ t)
    (h1 : t ≤ 19/21) (hlen : a.opcodes.length = 10)
    (hb : b.opcodes = a.opcodes ++ [x]) :
    diff_symbols a b t = 19/21 :=
  diff_symbols_insertion_eq a b t x h0 h1 hlen hb

/-- C4 witness: the amended theorem applied to concrete ten- and
eleven-opcode symbols at threshold 1/2. -/
theorem insertion_score_witness :
    diff_symbols
      { name := "a", bytes := [1], opcodes := [1, 2, 3, 4, 5, 6, 7, 8, 9, 10],
        vram := 0, is_decompiled := false, opcode_hash := [], equiv_hash := [],
        exact_hash := [], symbol_idx := 0 }
      { name := "b", bytes := [2],
        opcodes := [1, 2, 3, 4, 5, 6, 7, 8, 9, 10, 11], vram := 0,
        is_decompiled := false, opcode_hash := [], equiv_hash := [],
        exact_hash := [], symbol_idx := 0 }
      (1/2) = 19/21 :=
  insertion_score _ _ _ 11 (by norm_num) (by norm_num) (by decide) (by decide)

/-- C3 witness: the amended bounds applied to the concrete symbols of the C4
witness at threshold 1/2. -/
theorem similarity_bounds_witness :
    (0 ≤ diff_symbols
        { name := "a", bytes := [1], opcodes := [1, 2, 3, 4, 5, 6, 7, 8, 9, 10],
          vram := 0, is_decompiled := false, opcode_hash := [], equiv_hash := [],
          exact_hash := [], symbol_idx := 0 }
        { name := "a", bytes := [1], opcodes := [1, 2, 3, 4, 5, 6, 7, 8, 9, 10],
          vram := 0, is_decompiled := false, opcode_hash := [], equiv_hash := [],
          exact_hash := [], symbol_idx := 0 } (1/2) ∧
      diff_symbols
        { name := "a", bytes := [1], opcodes := [1, 2, 3, 4, 5, 6, 7, 8, 9, 10],
          vram := 0, is_decompiled := false, opcode_hash := [], equiv_hash := [],
          exact_hash := [], symbol_idx := 0 }
        { name := "a", bytes := [1], opcodes := [1, 2, 3, 4, 5, 6, 7, 8, 9, 10],
          vram := 0, is_decompiled := false, opcode_hash := [], equiv_hash := [],
          exact_hash := [], symbol_idx := 0 } (1/2) ≤ 1) ∧
    (({ name := "a", bytes := [1], opcodes := [1, 2, 3, 4, 5, 6, 7, 8, 9, 10],
        vram := 0, is_decompiled := false, opcode_hash := [], equiv_hash := [],
        exact_hash := [], symbol_idx := 0 } : Symbol).opcodes ≠ [] →
      diff_symbols
        { name := "a", bytes := [1], opcodes := [1, 2, 3, 4, 5, 6, 7, 8, 9, 10],
          vram := 0, is_decompiled := false, opcode_hash := [], equiv_hash := [],
          exact_hash := [], symbol_idx := 0 }
        { name := "a", bytes := [1], opcodes := [1, 2, 3, 4, 5, 6, 7, 8, 9, 10],
          vram := 0, is_decompiled := false, opcode_hash := [], equiv_hash := [],
          exact_hash := [], symbol_idx := 0 } (1/2) = 1) ∧
    (diff_symbols
        { name := "a", bytes := [1], opcodes := [1, 2, 3, 4, 5, 6, 7, 8, 9, 10],
          vram := 0, is_decompiled := false, opcode_hash := [], equiv_hash := [],
          exact_hash := [], symbol_idx := 0 }
        { name := "a", bytes := [1], opcodes := [1, 2, 3, 4, 5, 6, 7, 8, 9, 10],
          vram := 0, is_decompiled := false, opcode_hash := [], equiv_hash := [],
          exact_hash := [], symbol_idx := 0 } (1/2) = 1 →
      ([1] : List Nat) = [1]) :=
  similarity_bounds _ _ _ (by norm_num) (by norm_num)

/-! ## Claim C6 -/

/-- C6: for window size at least 1, `get_hashes` emits exactly
`max 1 (n - window_size + 1)` window hashes; when the input is shorter than
the window it is padded with zero elements up to the window size and exactly
one hash (of the padded vector) is emitted, and when it is at least as long
one hash per start position is emitted. -/
theorem get_hashes_window_count (data : List Nat) (W : Nat) (hW : 1 ≤ W) :
    (get_hashes data W).length = max 1 (data.length + 1 - W) ∧
    (data.length < W →
      get_hashes data W = [data ++ List.replicate (W - data.length) 0]) ∧
    (W ≤ data.length → (get_hashes data W).length = data.length + 1 - W) := by
  by_cases h : data.length < W
  · have hlen : (data ++ List.replicate (W - data.length) 0).length = W := by
      simp
      omega
    have heq : get_hashes data W = [data ++ List.replicate (W - data.length) 0] := by
      unfold get_hashes
      rw [if_pos h]
      dsimp only
      rw [hlen, Nat.sub_self, Nat.zero_add]
      rw [show List.range 1 = [0] from rfl]
      simp only [List.map_cons, List.map_nil, List.drop_zero]
      rw [List.take_of_length_le (le_of_eq hlen)]
    refine ⟨?_, fun _ => heq, fun hc => absurd hc (by omega)⟩
    rw [heq]
    simp
    omega
  · push_neg at h
    have hlen : (get_hashes data W).length = data.length + 1 - W := by
      unfold get_hashes
      rw [if_neg (by omega)]
      simp
      omega
    exact ⟨by rw [hlen]; omega, fun hc => absurd hc (by omega), fun _ => hlen⟩

/-- C6 witness: the window count theorem at a three-element vector with
window size 2, and at a one-element vector with window size 4. -/
theorem get_hashes_window_count_witness :
    ((get_hashes [5, 6, 7] 2).length = max 1 ([5, 6, 7].length + 1 - 2) ∧
      (([5, 6, 7] : List Nat).length < 2 →
        get_hashes [5, 6, 7] 2 = [[5, 6, 7] ++ List.replicate (2 - [5, 6, 7].length) 0]) ∧
      (2 ≤ ([5, 6, 7] : List Nat).length →
        (get_hashes [5, 6, 7] 2).length = [5, 6, 7].length + 1 - 2)) ∧
    ((get_hashes [9] 4).length = max 1 ([9].length + 1 - 4) ∧
      (([9] : List Nat).length < 4 →
        get_hashes [9] 4 = [[9] ++ List.replicate (4 - [9].length) 0]) ∧
      (4 ≤ ([9] : List Nat).length →
        (get_hashes [9] 4).length = [9].length + 1 - 4)) :=
  ⟨get_hashes_window_count [5, 6, 7] 2 (by decide),
   get_hashes_window_count [9] 4 (by decide)⟩

/-! ## Claim C8 -/

/-- C8: a submatch request with `min_length` below the configured database
window width is rejected with HTTP 400 before any window query is made, and
a request with `min_length` at least the window width is never rejected by
the `min_length` check. -/
theorem submatch_min_length_check (req : QueryWindowsRequest) (W : Int)
    (lookup : String → Option Int) :
    (req.min_length < W →
      ∃ r, get_symbol_submatches req W lookup = .rejected 400 r) ∧
    (req.min_length < W → ∀ i ml w s p,
      get_symbol_submatches req W lookup ≠ .windowQuery i ml w s p) ∧
    (W ≤ req.min_length →
      validateSubmatchRequest req W ≠ some .minLengthTooSmall) := by
  refine ⟨?_, ?_, ?_⟩
  · intro h
    unfold get_symbol_submatches validateSubmatchRequest submatchRejectStatus
    split_ifs <;> first | exact ⟨_, rfl⟩ | omega
  · intro h i ml w s p
    unfold get_symbol_submatches validateSubmatchRequest submatchRejectStatus
    split_ifs <;> first | omega | exact fun hc => nomatch hc
  · intro h
    unfold validateSubmatchRequest
    split_ifs <;> first | omega | decide

/-- C8 witness: the check theorem applied to a concrete too-small request
(min_length 3 against window width 8) and discharging each hypothesis. -/
theorem submatch_min_length_check_witness :
    (∃ r, get_symbol_submatches ⟨"s", 3, 0, 10⟩ 8 (fun _ => none) =
      .rejected 400 r) ∧
    validateSubmatchRequest ⟨"s", 9, 0, 10⟩ 8 ≠ some .minLengthTooSmall :=
  ⟨(submatch_min_length_check ⟨"s", 3, 0, 10⟩ 8 (fun _ => none)).1 (by decide),
   (submatch_min_length_check ⟨"s", 9, 0, 10⟩ 8 (fun _ => none)).2.2 (by decide)⟩

/-! ## Claim C9: the `Symbol::new` trimming invariants -/

theorem Arch.one_le_insnLength (a : Arch) : 1 ≤ a.insnLength := by
  cases a <;> simp [Arch.insnLength]

theorem trimZeroChunksGo_take (k : Nat) :
    ∀ (fuel : Nat) (bs : List Nat), ∃ m,
      trimZeroChunksGo k fuel bs = bs.take m := by
  intro fuel
  induction fuel with
  | zero => exact fun bs => ⟨bs.length, (List.take_length bs).symm⟩
  | succ fuel ih =>
    intro bs
    unfold trimZeroChunksGo
    split
    · obtain ⟨m, hm⟩ := ih (bs.take (bs.length - k))
      refine ⟨min m (bs.length - k), ?_⟩
      rw [hm, List.take_take]
    · exact ⟨bs.length, (List.take_length bs).symm⟩

theorem trimZeroChunksGo_mod (k : Nat) :
    ∀ (fuel : Nat) (bs : List Nat),
      (trimZeroChunksGo k fuel bs).length % k = bs.length % k := by
  intro fuel
  induction fuel with
  | zero => intro bs; rfl
  | succ fuel ih =>
    intro bs
    unfold trimZeroChunksGo
    split
    case isTrue h =>
      rw [ih]
      rcases h with ⟨hk, -⟩
      rw [List.length_take]
      rcases Nat.eq_zero_or_pos k with rfl | hk1
      · simp
      · rw [Nat.min_def, if_pos (by omega)]
        exact (Nat.mod_eq_sub_mod hk).symm
    case isFalse => rfl

theorem trimZeroChunksGo_last (k : Nat) (hk : 1 ≤ k) :
    ∀ (fuel : Nat) (bs : List Nat), bs.length ≤ fuel →
      ¬(k ≤ (trimZeroChunksGo k fuel bs).length ∧
        (trimZeroChunksGo k fuel bs).drop
          ((trimZeroChunksGo k fuel bs).length - k) = List.replicate k 0) := by
  intro fuel
  induction fuel with
  | zero =>
    intro bs hbs
    rintro ⟨hle, -⟩
    unfold trimZeroChunksGo at hle
    omega
  | succ fuel ih =>
    intro bs hbs
    unfold trimZeroChunksGo
    split
    case isTrue h =>
      apply ih
      rw [List.length_take]
      rcases h with ⟨hkb, -⟩
      omega
    case isFalse h => exact h

theorem trimZeroChunks_invariants (k : Nat) (hk : 1 ≤ k) (bs : List Nat) :
    trimZeroChunks k bs = bs.take (trimZeroChunks k bs).length ∧
    (trimZeroChunks k bs).length % k = bs.length % k ∧
    (k ≤ (trimZeroChunks k bs).length →
      (trimZeroChunks k bs).drop ((trimZeroChunks k bs).length - k) ≠
        List.replicate k 0) := by
  refine ⟨?_, trimZeroChunksGo_mod k bs.length bs, ?_⟩
  · obtain ⟨m, hm⟩ := trimZeroChunksGo_take k bs.length bs
    rw [trimZeroChunks, hm, List.length_take, List.take_eq_take]
    omega
  · intro hle hrep
    exact trimZeroChunksGo_last k hk bs.length bs le_rfl ⟨hle, hrep⟩

/-- C9: `Symbol::new` stores exactly the input bytes with whole trailing
all-zero instruction-length chunks removed: the stored bytes are a prefix of
the input, the stored length is congruent to the input length modulo the
instruction length, a stored vector of at least one instruction does not end
in an all-zero chunk, and the opcode count is the stored length divided by
the instruction length. -/
theorem symbol_new_invariants (D : Decoder) (d : SymbolDef)
    (relocs : Nat → Option Reloc) :
    (Symbol.new D d relocs).bytes =
      d.bytes.take (Symbol.new D d relocs).bytes.length ∧
    (Symbol.new D d relocs).bytes.length % d.platform.arch.insnLength =
      d.bytes.length % d.platform.arch.insnLength ∧
    (d.platform.arch.insnLength ≤ (Symbol.new D d relocs).bytes.length →
      (Symbol.new D d relocs).bytes.drop
        ((Symbol.new D d relocs).bytes.length - d.platform.arch.insnLength) ≠
        List.replicate d.platform.arch.insnLength 0) ∧
    (Symbol.new D d relocs).opcodes.length =
      (Symbol.new D d relocs).bytes.length / d.platform.arch.insnLength := by
  have hb : (Symbol.new D d relocs).bytes =
      trimZeroChunks d.platform.arch.insnLength d.bytes := rfl
  have hop : (Symbol.new D d relocs).opcodes =
      get_opcodes D (trimZeroChunks d.platform.arch.insnLength d.bytes)
        d.platform := rfl
  obtain ⟨h1, h2, h3⟩ := trimZeroChunks_invariants d.platform.arch.insnLength
    (Arch.one_le_insnLength _) d.bytes
  rw [hb, hop]
  refine ⟨h1, h2, h3, ?_⟩
  cases hp : d.platform <;>
    simp [get_opcodes, Platform.arch, chunksExact_length, Arch.insnLength]

/-- C9 witness: the invariants at a concrete byte vector with a trailing
zero chunk and a ragged tail, on the N64 platform. -/
theorem symbol_new_invariants_witness :
    ((Symbol.new D0 ⟨"w", [1, 2, 3, 4, 0, 0, 0, 0, 9], 0, false, .n64, 0⟩
        emptyRelocs).bytes =
      [1, 2, 3, 4, 0, 0, 0, 0, 9].take
        (Symbol.new D0 ⟨"w", [1, 2, 3, 4, 0, 0, 0, 0, 9], 0, false, .n64, 0⟩
          emptyRelocs).bytes.length) ∧
    ((Symbol.new D0 ⟨"w", [1, 2, 3, 4, 0, 0, 0, 0, 9], 0, false, .n64, 0⟩
        emptyRelocs).bytes.length % (Platform.n64).arch.insnLength =
      ([1, 2, 3, 4, 0, 0, 0, 0, 9] : List Nat).length %
        (Platform.n64).arch.insnLength) ∧
    ((Platform.n64).arch.insnLength ≤
        (Symbol.new D0 ⟨"w", [1, 2, 3, 4, 0, 0, 0, 0, 9], 0, false, .n64, 0⟩
          emptyRelocs).bytes.length →
      (Symbol.new D0 ⟨"w", [1, 2, 3, 4, 0, 0, 0, 0, 9], 0, false, .n64, 0⟩
          emptyRelocs).bytes.drop
        ((Symbol.new D0 ⟨"w", [1, 2, 3, 4, 0, 0, 0, 0, 9], 0, false, .n64, 0⟩
            emptyRelocs).bytes.length - (Platform.n64).arch.insnLength) ≠
        List.replicate (Platform.n64).arch.insnLength 0) ∧
    (Symbol.new D0 ⟨"w", [1, 2, 3, 4, 0, 0, 0, 0, 9], 0, false, .n64, 0⟩
        emptyRelocs).opcodes.length =
      (Symbol.new D0 ⟨"w", [1, 2, 3, 4, 0, 0, 0, 0, 9], 0, false, .n64, 0⟩
          emptyRelocs).bytes.length / (Platform.n64).arch.insnLength :=
  symbol_new_invariants D0 ⟨"w", [1, 2, 3, 4, 0, 0, 0, 0, 9], 0, false, .n64, 0⟩
    emptyRelocs

/-! ## Claim C1: the layered hashes

`get_equivalence_hash` feeds, per instruction, the opcode and then the
operands into one hasher; in the tagged-stream model the opcode items can be
recovered from the stream, which yields the `equiv ⇒ opcode` layer.  The
`exact ⇒ equiv` layer needs equal `vram`: the equivalence hash decodes each
instruction at `vram + offset`, and the spec's decoder interface lets operand
values depend on that address. -/

/-- Projection of a hash item to its opcode payload, if any. -/
def isOpcodeItem : HashItem → Option Nat
  | .opcode n => some n
  | _ => none

theorem emitMipsOp_isOpcodeItem (hr : Bool) (o : MOperand) :
    ∀ it ∈ emitMipsOp hr o, isOpcodeItem it = none := by
  cases o <;> cases hr <;> simp [emitMipsOp, isOpcodeItem]

theorem emitPpcOp_isOpcodeItem (hr : Bool) (o : POperand) :
    ∀ it ∈ emitPpcOp hr o, isOpcodeItem it = none := by
  cases o <;> cases hr <;> simp [emitPpcOp, isOpcodeItem]

/-- The opcode `get_opcodes` assigns to one chunk. -/
def opcodeOfChunk (D : Decoder) (p : Platform) (c : List Nat) : Nat :=
  match p.arch with
  | .mips => D.mipsOpcode (readWord p.endianness c)
  | .ppc => D.ppcOpcode (readWord p.endianness c)
  | .aarch64 => 0

theorem Platform.arch_ne_aarch64 (p : Platform) : p.arch ≠ .aarch64 := by
  cases p <;> decide

theorem chunkItems_filterMap (D : Decoder) (p : Platform)
    (hna : p.arch ≠ .aarch64) (hr : Bool) (c : List Nat) (cur : Nat) :
    (chunkItems D p hr (readWord p.endianness c) cur).filterMap isOpcodeItem =
      [opcodeOfChunk D p c] := by
  cases harch : p.arch
  case mips =>
    simp only [chunkItems, opcodeOfChunk, harch, List.filterMap_cons]
    have hops : ((D.mipsOps (readWord p.endianness c) cur).flatMap
        (emitMipsOp hr)).filterMap isOpcodeItem = [] := by
      rw [List.filterMap_eq_nil_iff]
      intro a ha
      rw [List.mem_flatMap] at ha
      obtain ⟨o, -, hao⟩ := ha
      exact emitMipsOp_isOpcodeItem hr o a hao
    simp [isOpcodeItem, hops]
  case ppc =>
    simp only [chunkItems, opcodeOfChunk, harch, List.filterMap_cons]
    have hops : ((D.ppcOps (readWord p.endianness c)).flatMap
        (emitPpcOp hr)).filterMap isOpcodeItem = [] := by
      rw [List.filterMap_eq_nil_iff]
      intro a ha
      rw [List.mem_flatMap] at ha
      obtain ⟨o, -, hao⟩ := ha
      exact emitPpcOp_isOpcodeItem hr o a hao
    simp [isOpcodeItem, hops]
  case aarch64 => exact absurd harch hna

theorem equivStreamGo_filterMap (D : Decoder) (p : Platform)
    (relocs : Nat → Option Reloc) (vram : Nat) (hna : p.arch ≠ .aarch64) :
    ∀ (cs : List (List Nat)) (i : Nat) (seen : List (String × Int × Nat)),
      (equivStreamGo D p relocs vram i seen cs).filterMap isOpcodeItem =
        cs.map (opcodeOfChunk D p) := by
  intro cs
  induction cs with
  | nil => intro i seen; rfl
  | cons c cs ih =>
    intro i seen
    unfold equivStreamGo
    cases hrel : relocs (vram + i * p.arch.insnLength)
    case none =>
      dsimp only
      rw [hrel]
      rw [List.filterMap_append, chunkItems_filterMap D p hna, ih]
      rfl
    case some r =>
      dsimp only
      rw [hrel]
      dsimp only
      rw [List.filterMap_append, List.filterMap_cons]
      simp only [isOpcodeItem]
      rw [chunkItems_filterMap D p hna, ih]
      rfl

/-- The opcodes fed into the opcode hash can be recovered from the
equivalence-hash stream: filtering the stream for its opcode items yields
exactly `get_opcodes`, regardless of relocations and vram. -/
theorem equiv_stream_determines_opcodes (D : Decoder) (bytes : List Nat)
    (vram : Nat) (p : Platform) (relocs : Nat → Option Reloc) :
    (get_equivalence_hash D bytes vram p relocs).filterMap isOpcodeItem =
      get_opcodes D bytes p := by
  have hmap : get_opcodes D bytes p =
      (chunksExact p.arch.insnLength bytes).map (opcodeOfChunk D p) := by
    cases p <;> rfl
  rw [hmap]
  exact equivStreamGo_filterMap D p relocs vram (Platform.arch_ne_aarch64 p) _ 0 []

/-- The C1 claim as stated: for symbols built on the same platform with
empty relocation maps, equal exact hashes force equal equivalence hashes and
equal equivalence hashes force equal opcode hashes, regardless of vram. -/
def hashLayerClaim : Prop :=
  ∀ (D : Decoder) (d1 d2 : SymbolDef), d1.platform = d2.platform →
    ((Symbol.new D d1 emptyRelocs).exact_hash =
        (Symbol.new D d2 emptyRelocs).exact_hash →
      (Symbol.new D d1 emptyRelocs).equiv_hash =
        (Symbol.new D d2 emptyRelocs).equiv_hash) ∧
    ((Symbol.new D d1 emptyRelocs).equiv_hash =
        (Symbol.new D d2 emptyRelocs).equiv_hash →
      (Symbol.new D d1 emptyRelocs).opcode_hash =
        (Symbol.new D d2 emptyRelocs).opcode_hash)

/-- A decoder conforming to the spec's `(word, address)` interface whose
operand value depends on the instruction's address, as rabbitizer's absolute
jump-target labels do. -/
def D1 : Decoder :=
  { mipsOpcode := fun _ => 0
    mipsOps := fun _ v => [.label v]
    ppcOpcode := fun _ => 0
    ppcOps := fun _ => [] }

/-- C1 (counterexample): `get_equivalence_hash` decodes every instruction at
`vram + offset` and hashes the resulting operand values, so two byte-identical
symbols at different vram (equal exact hashes) get different equivalence
hashes under an address-sensitive decoder; the claim's "regardless of vram"
fails. -/
theorem hash_layers_counterexample : ¬ hashLayerClaim := by
  intro h
  have h1 := (h D1 ⟨"x", [0, 0, 0, 1], 0, false, .n64, 0⟩
    ⟨"y", [0, 0, 0, 1], 1, false, .n64, 0⟩ rfl).1
  have h2 := h1 (by decide)
  revert h2
  decide

/-- C1 (amended): on the same platform with empty relocation maps, equal
exact hashes together with equal vram force equal equivalence hashes, and
equal equivalence hashes force equal opcode hashes unconditionally
(regardless of vram, name, and all other fields). -/
theorem hash_layers (D : Decoder) (d1 d2 : SymbolDef)
    (hp : d1.platform = d2.platform) :
    (d1.vram = d2.vram →
      (Symbol.new D d1 emptyRelocs).exact_hash =
        (Symbol.new D d2 emptyRelocs).exact_hash →
      (Symbol.new D d1 emptyRelocs).equiv_hash =
        (Symbol.new D d2 emptyRelocs).equiv_hash) ∧
    ((Symbol.new D d1 emptyRelocs).equiv_hash =
        (Symbol.new D d2 emptyRelocs).equiv_hash →
      (Symbol.new D d1 emptyRelocs).opcode_hash =
        (Symbol.new D d2 emptyRelocs).opcode_hash) := by
  constructor
  · intro hv hx
    show get_equivalence_hash D
        (trimZeroChunks d1.platform.arch.insnLength d1.bytes) d1.vram
        d1.platform emptyRelocs =
      get_equivalence_hash D
        (trimZeroChunks d2.platform.arch.insnLength d2.bytes) d2.vram
        d2.platform emptyRelocs
    have hx' : trimZeroChunks d1.platform.arch.insnLength d1.bytes =
        trimZeroChunks d2.platform.arch.insnLength d2.bytes := hx
    rw [hp] at hx' ⊢
    rw [hx', hv]
  · intro he
    show get_opcodes D (trimZeroChunks d1.platform.arch.insnLength d1.bytes)
        d1.platform =
      get_opcodes D (trimZeroChunks d2.platform.arch.insnLength d2.bytes)
        d2.platform
    rw [← equiv_stream_determines_opcodes D _ d1.vram _ emptyRelocs,
      ← equiv_stream_determines_opcodes D _ d2.vram _ emptyRelocs]
    exact congrArg (List.filterMap isOpcodeItem) he

/-- C1 witness: the amended layering applied to two concrete byte-identical
symbol definitions at the same vram under the address-sensitive decoder. -/
theorem hash_layers_witness :
    (((⟨"x", [0, 0, 0, 1], 5, false, .n64, 0⟩ : SymbolDef)).vram =
        ((⟨"y", [0, 0, 0, 1], 5, false, .n64, 0⟩ : SymbolDef)).vram →
      (Symbol.new D1 ⟨"x", [0, 0, 0, 1], 5, false, .n64, 0⟩ emptyRelocs).exact_hash =
        (Symbol.new D1 ⟨"y", [0, 0, 0, 1], 5, false, .n64, 0⟩ emptyRelocs).exact_hash →
      (Symbol.new D1 ⟨"x", [0, 0, 0, 1], 5, false, .n64, 0⟩ emptyRelocs).equiv_hash =
        (Symbol.new D1 ⟨"y", [0, 0, 0, 1], 5, false, .n64, 0⟩ emptyRelocs).equiv_hash) ∧
    ((Symbol.new D1 ⟨"x", [0, 0, 0, 1], 5, false, .n64, 0⟩ emptyRelocs).equiv_hash =
        (Symbol.new D1 ⟨"y", [0, 0, 0, 1], 5, false, .n64, 0⟩ emptyRelocs).equiv_hash →
      (Symbol.new D1 ⟨"x", [0, 0, 0, 1], 5, false, .n64, 0⟩ emptyRelocs).opcode_hash =
        (Symbol.new D1 ⟨"y", [0, 0, 0, 1], 5, false, .n64, 0⟩ emptyRelocs).opcode_hash) :=
  hash_layers D1 ⟨"x", [0, 0, 0, 1], 5, false, .n64, 0⟩
    ⟨"y", [0, 0, 0, 1], 5, false, .n64, 0⟩ rfl

/-! ## Claim C2: submatch soundness and completeness -/

theorem contains_iff {l : List (List Nat)} {x : List Nat} :
    l.contains x = true ↔ x ∈ l := List.elem_iff

theorem groupGo_ne_nil :
    ∀ (rest : List InsnSeqMatch) (prev : Nat) (cur : List InsnSeqMatch),
      groupGo prev cur rest ≠ [] := by
  intro rest
  induction rest with
  | nil => intro prev cur; simp [groupGo]
  | cons m r ih =>
    intro prev cur
    unfold groupGo
    split
    · exact ih _ _
    · simp

theorem mem_get_submatches_length (h1 h2 : List (List Nat)) (W : Nat)
    (m : InsnSeqMatch) (hm : m ∈ get_submatches h1 h2 W) : W ≤ m.length := by
  unfold get_submatches at hm
  rcases hmh : matchingHashes h1 h2 with - | ⟨m0, rest⟩
  · rw [hmh] at hm
    simp at hm
  · rw [hmh] at hm
    dsimp only at hm
    rw [List.mem_map] at hm
    obtain ⟨g, -, hg⟩ := hm
    rw [← hg]
    simp

theorem get_submatches_ne_nil (h1 h2 : List (List Nat)) (W : Nat)
    (hne : matchingHashes h1 h2 ≠ []) : get_submatches h1 h2 W ≠ [] := by
  unfold get_submatches
  rcases hmh : matchingHashes h1 h2 with - | ⟨m0, rest⟩
  · exact absurd hmh hne
  · dsimp only
    intro hc
    rw [List.map_eq_nil_iff] at hc
    exact groupGo_ne_nil rest m0.offset1 [m0] hc

theorem matchingHashes_ne_nil_iff (h1 h2 : List (List Nat)) :
    matchingHashes h1 h2 ≠ [] ↔
      ∃ i, i < h1.length ∧ h2.contains (h1.getD i []) = true := by
  constructor
  · intro h
    by_contra hc
    push_neg at hc
    apply h
    unfold matchingHashes
    rw [List.map_eq_nil_iff, List.filter_eq_nil_iff]
    intro i hi
    rw [List.mem_range] at hi
    simpa using hc i hi
  · rintro ⟨i, hi, hcont⟩ hc
    unfold matchingHashes at hc
    rw [List.map_eq_nil_iff, List.filter_eq_nil_iff] at hc
    exact absurd hcont (by simpa using hc i (List.mem_range.2 hi))

theorem get_hashes_eq_of_le (data : List Nat) (W : Nat)
    (h : ¬ data.length < W) :
    get_hashes data W =
      (List.range (data.length - W + 1)).map fun i => (data.drop i).take W := by
  unfold get_hashes
  rw [if_neg h]

theorem get_hashes_length_of_le (data : List Nat) (W : Nat)
    (h : W ≤ data.length) :
    (get_hashes data W).length = data.length - W + 1 := by
  rw [get_hashes_eq_of_le data W (by omega)]
  simp

theorem get_hashes_getD (data : List Nat) (W : Nat) (i : Nat)
    (hW : 1 ≤ W) (hi : i + W ≤ data.length) :
    (get_hashes data W).getD i [] = (data.drop i).take W := by
  rw [get_hashes_eq_of_le data W (by omega)]
  have hlen : i < ((List.range (data.length - W + 1)).map
      fun j => (data.drop j).take W).length := by
    simp
    omega
  rw [List.getD_eq_getElem _ _ hlen, List.getElem_map, List.getElem_range]

theorem mem_get_hashes_iff (data : List Nat) (W : Nat) (hW : 1 ≤ W)
    (hle : W ≤ data.length) (x : List Nat) :
    x ∈ get_hashes data W ↔
      ∃ j, j + W ≤ data.length ∧ x = (data.drop j).take W := by
  rw [get_hashes_eq_of_le data W (by omega)]
  rw [List.mem_map]
  constructor
  · rintro ⟨j, hj, rfl⟩
    rw [List.mem_range] at hj
    exact ⟨j, by omega, rfl⟩
  · rintro ⟨j, hj, rfl⟩
    exact ⟨j, List.mem_range.2 (by omega), rfl⟩

/-- The spec-side predicate of C2.  Modelled from the spec: there exist
offsets `i`, `j` and a length `L ≥ W` with
`a.opcodes[i..i+L] == b.opcodes[j..j+L]`. -/
def specCommonRun (a b : List Nat) (W : Nat) : Prop :=
  ∃ L i j, W ≤ L ∧ i + L ≤ a.length ∧ j + L ≤ b.length ∧
    (a.drop i).take L = (b.drop j).take L

/-- The C2 claim as stated: a run of at least `W` instructions is reported
between two symbols exactly when their opcode vectors share a slice of
length at least `W`, for every pair of symbols. -/
def submatchRunClaim : Prop :=
  ∀ (a b : Symbol) (W : Nat), 1 ≤ W →
    ((∃ m ∈ get_submatches (a.get_opcode_hashes W) (b.get_opcode_hashes W) W,
        W ≤ m.length) ↔
      specCommonRun a.opcodes b.opcodes W)

/-- C2 (counterexample): a symbol with a single opcode is zero-padded by
`get_hashes` up to the window width, so its padded window can equal a real
window of another symbol: with `a.opcodes = [1]`, `b.opcodes = [1, 0, 5]`
and width 2, a run of length 3 is reported although no common slice of
length ≥ 2 exists inside `a`. -/
theorem submatch_iff_counterexample : ¬ submatchRunClaim := by
  intro h
  have h1 := (h ⟨"p", [1], [1], 0, false, [], [], [], 0⟩
    ⟨"q", [2], [1, 0, 5], 0, false, [], [], [], 0⟩ 2 (by decide)).mp (by decide)
  obtain ⟨L, i, j, hW, hi, -, -⟩ := h1
  simp at hi
  omega

/-- C2 (amended): for symbols whose opcode vectors both hold at least `W`
opcodes (so that `get_hashes` does not pad), the in-memory submatch search
reports a run of length at least `W` if and only if the two opcode vectors
share a slice of length at least `W` — in the perfect-hash model in which
distinct windows never collide. -/
theorem submatch_iff_common_run (a b : Symbol) (W : Nat) (hW : 1 ≤ W)
    (ha : W ≤ a.opcodes.length) (hb : W ≤ b.opcodes.length) :
    ((∃ m ∈ get_submatches (a.get_opcode_hashes W) (b.get_opcode_hashes W) W,
        W ≤ m.length) ↔
      specCommonRun a.opcodes b.opcodes W) := by
  simp only [Symbol.get_opcode_hashes]
  constructor
  · rintro ⟨m, hm, -⟩
    have hne : matchingHashes (get_hashes a.opcodes W) (get_hashes b.opcodes W) ≠ [] := by
      intro hnil
      simp [get_submatches, hnil] at hm
    rw [matchingHashes_ne_nil_iff] at hne
    obtain ⟨i, hi, hcont⟩ := hne
    rw [get_hashes_length_of_le a.opcodes W ha] at hi
    rw [get_hashes_getD a.opcodes W i hW (by omega)] at hcont
    rw [contains_iff] at hcont
    rw [mem_get_hashes_iff b.opcodes W hW hb] at hcont
    obtain ⟨j, hj, heq⟩ := hcont
    exact ⟨W, i, j, le_rfl, by omega, hj, heq⟩
  · rintro ⟨L, i, j, hL, hiL, hjL, heq⟩
    have hwin : (a.opcodes.drop i).take W = (b.opcodes.drop j).take W := by
      have h' := congrArg (List.take W) heq
      rwa [List.take_take, List.take_take, min_eq_left hL] at h'
    have hne : matchingHashes (get_hashes a.opcodes W) (get_hashes b.opcodes W) ≠ [] := by
      rw [matchingHashes_ne_nil_iff]
      refine ⟨i, ?_, ?_⟩
      · rw [get_hashes_length_of_le a.opcodes W ha]
        omega
      · rw [get_hashes_getD a.opcodes W i hW (by omega), contains_iff, hwin]
        rw [mem_get_hashes_iff b.opcodes W hW hb]
        exact ⟨j, by omega, rfl⟩
    obtain ⟨m, hm⟩ := List.exists_mem_of_ne_nil _
      (get_submatches_ne_nil (get_hashes a.opcodes W) (get_hashes b.opcodes W)
        W hne)
    exact ⟨m, hm, mem_get_submatches_length _ _ W m hm⟩

/-- C2 witness: the amended equivalence at two concrete symbols sharing the
slice `[2, 3]` at width 2. -/
theorem submatch_iff_common_run_witness :
    ((∃ m ∈ get_submatches
        ((⟨"p", [1], [1, 2, 3], 0, false, [], [], [], 0⟩ : Symbol).get_opcode_hashes 2)
        ((⟨"q", [2], [9, 2, 3, 4], 0, false, [], [], [], 0⟩ : Symbol).get_opcode_hashes 2) 2,
        2 ≤ m.length) ↔
      specCommonRun [1, 2, 3] [9, 2, 3, 4] 2) :=
  submatch_iff_common_run ⟨"p", [1], [1, 2, 3], 0, false, [], [], [], 0⟩
    ⟨"q", [2], [9, 2, 3, 4], 0, false, [], [], [], 0⟩ 2 (by decide) (by decide)
    (by decide)

/-! ## Claim C10: the exact shape of `get_submatches` output

`matchingHashes` enumerates, in increasing order, exactly the positions of
`hashes_1` whose hash occurs in `hashes_2`; the grouping loop then merges
maximal runs of consecutive positions.  The characterization below is proved
by an induction over the position list, carried out on the `Nat`-level
mirror `posGroupGo` of the grouping loop. -/

/-- The grouping loop of `get_submatches`, on bare positions. -/
def posGroupGo (prev : Nat) (cur : List Nat) : List Nat → List (List Nat)
  | [] => [cur]
  | x :: xs =>
    if x = prev + 1 then posGroupGo x (cur ++ [x]) xs
    else cur :: posGroupGo x [x] xs

theorem groupGo_map (f : Nat → InsnSeqMatch) (hf : ∀ x, (f x).offset1 = x) :
    ∀ (l : List Nat) (prev : Nat) (curP : List Nat),
      groupGo prev (curP.map f) (l.map f) =
        (posGroupGo prev curP l).map (List.map f) := by
  intro l
  induction l with
  | nil => intro prev curP; rfl
  | cons x xs ih =>
    intro prev curP
    unfold groupGo posGroupGo
    simp only [List.map_cons, hf]
    by_cases hx : x = prev + 1
    · rw [if_pos hx, if_pos hx]
      have hcat : curP.map f ++ [f x] = (curP ++ [x]).map f := by simp
      rw [hcat, ih]
    · rw [if_neg hx, if_neg hx]
      rw [show [f x] = [x].map f from rfl, ih]
      rfl

theorem posGroupGo_spec (P : Nat → Prop) :
    ∀ (l : List Nat) (a k : Nat), 1 ≤ k →
      (∀ t, t < k → P (a + t)) →
      (a = 0 ∨ ¬ P (a - 1)) →
      (∀ z, z ∈ l ↔ (P z ∧ a + k - 1 < z)) →
      l.Pairwise (· < ·) →
      ∀ g ∈ posGroupGo (a + k - 1) (List.range' a k) l,
        ∃ a' k', g = List.range' a' k' ∧ 1 ≤ k' ∧
          (∀ t, t < k' → P (a' + t)) ∧ ¬ P (a' + k') ∧
          (a' = 0 ∨ ¬ P (a' - 1)) := by
  intro l
  induction l with
  | nil =>
    intro a k hk hcur hleft hiff hsort g hg
    simp only [posGroupGo, List.mem_singleton] at hg
    subst hg
    refine ⟨a, k, rfl, hk, hcur, ?_, hleft⟩
    intro hP
    have hmem := (hiff (a + k)).2 ⟨hP, by omega⟩
    simp at hmem
  | cons x xs ih =>
    intro a k hk hcur hleft hiff hsort g hg
    have hx := (hiff x).1 (List.mem_cons_self x xs)
    have hxs_gt : ∀ z ∈ xs, x < z := (List.pairwise_cons.1 hsort).1
    have hsort' : xs.Pairwise (· < ·) := (List.pairwise_cons.1 hsort).2
    unfold posGroupGo at hg
    by_cases hxeq : x = (a + k - 1) + 1
    · rw [if_pos hxeq] at hg
      have hx_ak : x = a + k := by omega
      have hconcat : List.range' a k ++ [x] = List.range' a (k + 1) := by
        rw [hx_ak, show a + k = a + 1 * k by ring]
        exact (List.range'_concat a k).symm
      have hprev : x = a + (k + 1) - 1 := by omega
      rw [hconcat, hprev] at hg
      refine ih a (k + 1) (by omega) ?_ hleft ?_ hsort' g hg
      · intro t ht
        rcases Nat.lt_succ_iff_lt_or_eq.1 ht with h' | h'
        · exact hcur t h'
        · subst h'
          rw [← hx_ak]
          exact hx.1
      · intro z
        constructor
        · intro hz
          have h' := (hiff z).1 (List.mem_cons_of_mem x hz)
          have := hxs_gt z hz
          exact ⟨h'.1, by omega⟩
        · rintro ⟨hPz, hgt⟩
          have hz1 := (hiff z).2 ⟨hPz, by omega⟩
          rcases List.mem_cons.1 hz1 with h' | h'
          · omega
          · exact h'
    · rw [if_neg hxeq] at hg
      rcases List.mem_cons.1 hg with hgcur | hgrec
      · subst hgcur
        refine ⟨a, k, rfl, hk, hcur, ?_, hleft⟩
        intro hP
        have hmem := (hiff (a + k)).2 ⟨hP, by omega⟩
        rcases List.mem_cons.1 hmem with h' | h'
        · omega
        · have := hxs_gt _ h'
          omega
      · rw [show ([x] : List Nat) = List.range' x 1 from List.range'_one.symm]
          at hgrec
        refine ih x 1 le_rfl ?_ ?_ ?_ hsort' g ?_
        · intro t ht
          have ht0 : t = 0 := by omega
          subst ht0
          simpa using hx.1
        · right
          intro hP
          have hmem := (hiff (x - 1)).2 ⟨hP, by omega⟩
          rcases List.mem_cons.1 hmem with h' | h'
          · omega
          · have := hxs_gt _ h'
            omega
        · intro z
          constructor
          · intro hz
            have h' := (hiff z).1 (List.mem_cons_of_mem x hz)
            have := hxs_gt z hz
            exact ⟨h'.1, by omega⟩
          · rintro ⟨hPz, hgt⟩
            have hz1 := (hiff z).2 ⟨hPz, by omega⟩
            rcases List.mem_cons.1 hz1 with h' | h'
            · omega
            · exact h'
        · simpa [Nat.add_sub_cancel] using hgrec

/-- C10: every match returned by `get_submatches` starts at a matching
position whose `offset2` is the index of the first occurrence in `hashes_2`
of `hashes_1[offset1]`; its length is the number of merged window positions
plus `window_size`; the merged positions are exactly a maximal run of
consecutive matching `offset1` positions (each merely required to occur
anywhere in `hashes_2` — no consecutiveness in `hashes_2` is checked). -/
theorem get_submatches_characterization (h1 h2 : List (List Nat)) (W : Nat)
    (m : InsnSeqMatch) (hm : m ∈ get_submatches h1 h2 W) :
    (m.offset1 < h1.length ∧ h2.contains (h1.getD m.offset1 []) = true) ∧
    m.offset2 = h2.indexOf (h1.getD m.offset1 []) ∧
    W + 1 ≤ m.length ∧
    (∀ t, t < m.length - W →
      m.offset1 + t < h1.length ∧
        h2.contains (h1.getD (m.offset1 + t) []) = true) ∧
    ¬(m.offset1 + (m.length - W) < h1.length ∧
      h2.contains (h1.getD (m.offset1 + (m.length - W)) []) = true) ∧
    (m.offset1 = 0 ∨ ¬(m.offset1 - 1 < h1.length ∧
      h2.contains (h1.getD (m.offset1 - 1) []) = true)) := by
  set f : Nat → InsnSeqMatch :=
    fun i => ⟨i, h2.indexOf (h1.getD i []), 1⟩ with hfdef
  set posL : List Nat := (List.range h1.length).filter
    (fun i => h2.contains (h1.getD i [])) with hposdef
  have hmemP : ∀ z, z ∈ posL ↔
      (z < h1.length ∧ h2.contains (h1.getD z []) = true) := by
    intro z
    rw [hposdef, List.mem_filter, List.mem_range]
  have hpair : posL.Pairwise (· < ·) :=
    List.Pairwise.filter _ (List.pairwise_lt_range _)
  have hmh : matchingHashes h1 h2 = posL.map f := rfl
  unfold get_submatches at hm
  rcases hpos : posL with - | ⟨x0, xs0⟩
  · rw [hmh, hpos] at hm
    simp at hm
  · rw [hpos] at hpair
    have hmemP' : ∀ z, z ∈ x0 :: xs0 ↔
        (z < h1.length ∧ h2.contains (h1.getD z []) = true) := by
      intro z
      rw [← hpos]
      exact hmemP z
    rw [hmh, hpos] at hm
    simp only [List.map_cons] at hm
    rw [List.mem_map] at hm
    obtain ⟨g, hgmem, hgm⟩ := hm
    have hcomm : groupGo (f x0).offset1 [f x0] (xs0.map f) =
        (posGroupGo x0 [x0] xs0).map (List.map f) := by
      have h' := groupGo_map f (fun x => rfl) xs0 x0 [x0]
      simpa using h'
    rw [hcomm, List.mem_map] at hgmem
    obtain ⟨gP, hgP, hggP⟩ := hgmem
    have hx0P : x0 < h1.length ∧ h2.contains (h1.getD x0 []) = true :=
      (hmemP' x0).1 (List.mem_cons_self x0 xs0)
    have hxs_gt : ∀ z ∈ xs0, x0 < z := (List.pairwise_cons.1 hpair).1
    have hsort' := (List.pairwise_cons.1 hpair).2
    have hgP' : gP ∈ posGroupGo (x0 + 1 - 1) (List.range' x0 1) xs0 := by
      simpa [Nat.add_sub_cancel, List.range'_one] using hgP
    obtain ⟨a', k', hgeq, hk', hall, hnot, hleft'⟩ :=
      posGroupGo_spec
        (fun z => z < h1.length ∧ h2.contains (h1.getD z []) = true)
        xs0 x0 1 le_rfl
        (by
          intro t ht
          have ht0 : t = 0 := by omega
          subst ht0
          simpa using hx0P)
        (by
          by_cases hz : x0 = 0
          · exact Or.inl hz
          · right
            intro hP
            have hmem := (hmemP' (x0 - 1)).2 hP
            rcases List.mem_cons.1 hmem with h' | h'
            · omega
            · have := hxs_gt _ h'
              omega)
        (by
          intro z
          constructor
          · intro hz
            have h' := (hmemP' z).1 (List.mem_cons_of_mem x0 hz)
            have := hxs_gt z hz
            exact ⟨h', by omega⟩
          · rintro ⟨hPz, hgt⟩
            have hz1 := (hmemP' z).2 hPz
            rcases List.mem_cons.1 hz1 with h' | h'
            · omega
            · exact h')
        hsort' gP hgP'
    have hgP_cons : gP = a' :: List.range' (a' + 1) (k' - 1) := by
      rw [hgeq]
      rcases k' with - | k''
      · omega
      · rw [List.range'_succ]
        simp
    have hm1 : m.offset1 = a' := by
      rw [← hgm, ← hggP, hgP_cons]
      rfl
    have hm2 : m.offset2 = h2.indexOf (h1.getD a' []) := by
      rw [← hgm, ← hggP, hgP_cons]
      rfl
    have hm3 : m.length = k' + W := by
      rw [← hgm, ← hggP]
      simp [hgeq]
    refine ⟨?_, ?_, ?_, ?_, ?_, ?_⟩
    · rw [hm1]
      simpa using hall 0 hk'
    · rw [hm2, hm1]
    · omega
    · intro t ht
      rw [hm1]
      exact hall t (by omega)
    · rw [hm1]
      have hk'' : m.length - W = k' := by omega
      rw [hk'']
      exact hnot
    · rw [hm1]
      exact hleft'

/-- C10 witness: the characterization at the one-window example
`hashes_1 = hashes_2 = [[1]]` with window size 1, whose single reported
match is `⟨0, 0, 2⟩`. -/
theorem get_submatches_characterization_witness :
    ((0 : Nat) < ([[1]] : List (List Nat)).length ∧
      ([[1]] : List (List Nat)).contains
        (([[1]] : List (List Nat)).getD 0 []) = true) ∧
    (0 : Nat) = ([[1]] : List (List Nat)).indexOf
      (([[1]] : List (List Nat)).getD 0 []) ∧
    1 + 1 ≤ 2 ∧
    (∀ t, t < 2 - 1 → 0 + t < ([[1]] : List (List Nat)).length ∧
      ([[1]] : List (List Nat)).contains
        (([[1]] : List (List Nat)).getD (0 + t) []) = true) ∧
    ¬(0 + (2 - 1) < ([[1]] : List (List Nat)).length ∧
      ([[1]] : List (List Nat)).contains
        (([[1]] : List (List Nat)).getD (0 + (2 - 1)) []) = true) ∧
    ((0 : Nat) = 0 ∨ ¬(0 - 1 < ([[1]] : List (List Nat)).length ∧
      ([[1]] : List (List Nat)).contains
        (([[1]] : List (List Nat)).getD (0 - 1) []) = true)) :=
  get_submatches_characterization [[1]] [[1]] 1 ⟨0, 0, 2⟩ (by decide)

/-! ## Claim C5: MIPS HI16/LO16 pairing -/

theorem relocFold_append (e : Endianness) (data : List Nat) :
    ∀ (l1 l2 : List (Nat × RawReloc)) (st : RelState),
      relocFold e data st (l1 ++ l2) =
        match relocFold e data st l1 with
        | some st' => relocFold e data st' l2
        | none => none := by
  intro l1
  induction l1 with
  | nil => intro l2 st; rfl
  | cons ar rest ih =>
    intro l2 st
    rw [List.cons_append]
    show (match relocStep e data st ar with
        | some st' => relocFold e data st' (rest ++ l2)
        | none => none) =
      match relocFold e data st (ar :: rest) with
      | some st' => relocFold e data st' l2
      | none => none
    rw [show relocFold e data st (ar :: rest) = match relocStep e data st ar with
        | some st' => relocFold e data st' rest
        | none => none from rfl]
    cases hstep : relocStep e data st ar with
    | none => rfl
    | some st2 => exact ih l2 st2

theorem relocStep_stable (e : Endianness) (data : List Nat) (st st' : RelState)
    (ar : Nat × RawReloc) (y : Nat) (h : relocStep e data st ar = some st')
    (hy : ar.1 ≠ y) (hlast : ∀ hh, st.lastHi = some hh → hh ≠ y) :
    st'.acc y = st.acc y ∧ ∀ hh, st'.lastHi = some hh → hh ≠ y := by
  unfold relocStep at h
  split at h
  · obtain rfl := Option.some.inj h
    exact ⟨rfl, hlast⟩
  · split at h
    · split at h
      · exact Option.noConfusion h
      · obtain rfl := Option.some.inj h
        refine ⟨rfl, ?_⟩
        intro hh hlh
        simp only [RelState.lastHi, Option.some.injEq] at hlh
        rw [← hlh]
        exact hy
    · split at h
      · exact Option.noConfusion h
      · obtain rfl := Option.some.inj h
        constructor
        · show relUpdate _ ar.1 _ y = st.acc y
          rw [relUpdate, if_neg (Ne.symm hy)]
          cases hl : st.lastHi
          · rfl
          · show relUpdate st.acc _ _ y = st.acc y
            rw [relUpdate, if_neg (Ne.symm (hlast _ hl))]
        · intro hh hlh
          exact Option.noConfusion hlh
    · obtain rfl := Option.some.inj h
      constructor
      · show relUpdate st.acc ar.1 _ y = st.acc y
        rw [relUpdate, if_neg (Ne.symm hy)]
      · exact hlast
    · obtain rfl := Option.some.inj h
      exact ⟨rfl, fun hh hlh => Option.noConfusion hlh⟩

theorem relocFold_stable (e : Endianness) (data : List Nat) :
    ∀ (l : List (Nat × RawReloc)) (st fst : RelState) (y : Nat),
      relocFold e data st l = some fst →
      (∀ ar ∈ l, ar.1 ≠ y) →
      (∀ hh, st.lastHi = some hh → hh ≠ y) →
      fst.acc y = st.acc y := by
  intro l
  induction l with
  | nil =>
    intro st fst y hf _ _
    obtain rfl := Option.some.inj hf
    rfl
  | cons ar rest ih =>
    intro st fst y hf haddr hlast
    unfold relocFold at hf
    cases hstep : relocStep e data st ar with
    | none => rw [hstep] at hf; exact Option.noConfusion hf
    | some st' =>
      rw [hstep] at hf
      obtain ⟨hacc, hlast'⟩ := relocStep_stable e data st st' ar y hstep
        (haddr ar (List.mem_cons_self _ _)) hlast
      rw [ih st' fst y hf (fun a ha => haddr a (List.mem_cons_of_mem _ ha))
        hlast']
      exact hacc

theorem relocStep_stable_noLo (e : Endianness) (data : List Nat)
    (st st' : RelState) (ar : Nat × RawReloc) (y : Nat)
    (h : relocStep e data st ar = some st') (hk : ar.2.kind ≠ .lo16)
    (hy : ar.1 ≠ y) : st'.acc y = st.acc y := by
  unfold relocStep at h
  split at h
  · obtain rfl := Option.some.inj h
    rfl
  · split at h
    · split at h
      · exact Option.noConfusion h
      · obtain rfl := Option.some.inj h
        rfl
    · case _ heq => exact absurd heq hk
    · obtain rfl := Option.some.inj h
      show relUpdate st.acc ar.1 _ y = st.acc y
      rw [relUpdate, if_neg (Ne.symm hy)]
    · obtain rfl := Option.some.inj h
      rfl

theorem relocFold_stable_noLo (e : Endianness) (data : List Nat) :
    ∀ (l : List (Nat × RawReloc)) (st fst : RelState) (y : Nat),
      relocFold e data st l = some fst →
      (∀ ar ∈ l, ar.2.kind ≠ .lo16 ∧ ar.1 ≠ y) →
      fst.acc y = st.acc y := by
  intro l
  induction l with
  | nil =>
    intro st fst y hf _
    obtain rfl := Option.some.inj hf
    rfl
  | cons ar rest ih =>
    intro st fst y hf hcond
    unfold relocFold at hf
    cases hstep : relocStep e data st ar with
    | none => rw [hstep] at hf; exact Option.noConfusion hf
    | some st' =>
      rw [hstep] at hf
      obtain ⟨hk, hy⟩ := hcond ar (List.mem_cons_self _ _)
      rw [ih st' fst y hf (fun a ha => hcond a (List.mem_cons_of_mem _ ha))]
      exact relocStep_stable_noLo e data st st' ar y hstep hk hy

theorem relocFold_keep_pending (e : Endianness) (data : List Nat) :
    ∀ (l : List (Nat × RawReloc)) (st fst : RelState),
      (∀ ar ∈ l, ar.2.hasImplicitAddend = false ∨ ar.2.kind = .mips26) →
      relocFold e data st l = some fst →
      fst.lastHi = st.lastHi ∧ fst.lastHiAddend = st.lastHiAddend := by
  intro l
  induction l with
  | nil =>
    intro st fst _ hf
    obtain rfl := Option.some.inj hf
    exact ⟨rfl, rfl⟩
  | cons ar rest ih =>
    intro st fst hcond hf
    unfold relocFold at hf
    cases hstep : relocStep e data st ar with
    | none => rw [hstep] at hf; exact Option.noConfusion hf
    | some st' =>
      rw [hstep] at hf
      have hstep' : st'.lastHi = st.lastHi ∧ st'.lastHiAddend = st.lastHiAddend := by
        unfold relocStep at hstep
        rcases hcond ar (List.mem_cons_self _ _) with himp | hk
        · rw [if_pos himp] at hstep
          obtain rfl := Option.some.inj hstep
          exact ⟨rfl, rfl⟩
        · split at hstep
          · obtain rfl := Option.some.inj hstep
            exact ⟨rfl, rfl⟩
          · split at hstep
            · rename_i heq
              rw [heq] at hk
              exact MipsRelocKind.noConfusion hk
            · rename_i heq
              rw [heq] at hk
              exact MipsRelocKind.noConfusion hk
            · obtain rfl := Option.some.inj hstep
              exact ⟨rfl, rfl⟩
            · rename_i g heq
              rw [heq] at hk
              exact MipsRelocKind.noConfusion hk
      obtain ⟨h1, h2⟩ := ih st' fst
        (fun a ha => hcond a (List.mem_cons_of_mem _ ha)) hf
      exact ⟨h1.trans hstep'.1, h2.trans hstep'.2⟩

theorem relocStep_hi16 (e : Endianness) (data : List Nat) (st : RelState)
    (a : Nat) (rh : RawReloc) (st' : RelState) (hk : rh.kind = .hi16)
    (hi : rh.hasImplicitAddend = true)
    (h : relocStep e data st (a, rh) = some st') :
    ∃ w, readWordAt e data a = some w ∧
      st' = { st with lastHi := some a,
                      lastHiAddend := i32wrap ((w % 65536) * 65536) } := by
  unfold relocStep at h
  rw [if_neg (by simp [hi])] at h
  split at h
  case h_1 =>
    split at h
    case h_1 => exact Option.noConfusion h
    case h_2 w heq =>
      obtain rfl := Option.some.inj h
      exact ⟨w, heq, rfl⟩
  case h_2 heq => simp [hk] at heq
  case h_3 heq => simp [hk] at heq
  case h_4 g heq => simp [hk] at heq

theorem relocStep_lo16_paired (e : Endianness) (data : List Nat)
    (st : RelState) (c : Nat) (rl : RawReloc) (st' : RelState) (aHi : Nat)
    (hk : rl.kind = .lo16) (hi : rl.hasImplicitAddend = true)
    (hpend : st.lastHi = some aHi)
    (h : relocStep e data st (c, rl) = some st') :
    ∃ w, readWordAt e data c = some w ∧
      st'.lastHi = none ∧
      st'.acc aHi = some (CoddogRel.SymbolTarget rl.targetName
        (i32wrap (st.lastHiAddend + i16sext (w % 65536)))) ∧
      st'.acc c = some (CoddogRel.SymbolTarget rl.targetName
        (i32wrap (st.lastHiAddend + i16sext (w % 65536)))) := by
  unfold relocStep at h
  rw [if_neg (by simp [hi])] at h
  split at h
  case h_1 heq => simp [hk] at heq
  case h_2 =>
    split at h
    case h_1 => exact Option.noConfusion h
    case h_2 w heq =>
      obtain rfl := Option.some.inj h
      refine ⟨w, heq, rfl, ?_, ?_⟩
      · show relUpdate _ c _ aHi = _
        rw [hpend]
        by_cases hac : aHi = c
        · rw [relUpdate, if_pos hac]
        · rw [relUpdate, if_neg hac]
          show relUpdate st.acc aHi _ aHi = _
          rw [relUpdate, if_pos rfl]
      · show relUpdate _ c _ c = _
        rw [relUpdate, if_pos rfl]
  case h_3 heq => simp [hk] at heq
  case h_4 g heq => simp [hk] at heq

theorem relocStep_hi16_acc (e : Endianness) (data : List Nat) (st : RelState)
    (a : Nat) (rh : RawReloc) (st' : RelState) (hk : rh.kind = .hi16)
    (h : relocStep e data st (a, rh) = some st') : st'.acc = st.acc := by
  unfold relocStep at h
  split at h
  · obtain rfl := Option.some.inj h
    rfl
  · split at h
    case h_1 =>
      split at h
      case h_1 => exact Option.noConfusion h
      case h_2 w heq =>
        obtain rfl := Option.some.inj h
        rfl
    case h_2 heq => simp [hk] at heq
    case h_3 heq => simp [hk] at heq
    case h_4 g heq => simp [hk] at heq

theorem relocStep_other (e : Endianness) (data : List Nat) (st : RelState)
    (b g : Nat) (ro : RawReloc) (st' : RelState) (hk : ro.kind = .other g)
    (hi : ro.hasImplicitAddend = true)
    (h : relocStep e data st (b, ro) = some st') :
    st' = { st with lastHi := none } := by
  unfold relocStep at h
  rw [if_neg (by simp [hi])] at h
  split at h
  case h_1 heq => simp [hk] at heq
  case h_2 heq => simp [hk] at heq
  case h_3 heq => simp [hk] at heq
  case h_4 g' heq => exact (Option.some.inj h).symm

theorem relocMatch_eq_some {β : Type} (x : Option RelState)
    (f : RelState → Option β) (b : β)
    (h : (match x with | some st' => f st' | none => none) = some b) :
    ∃ st', x = some st' ∧ f st' = some b := by
  cases x with
  | none => exact Option.noConfusion h
  | some st' => exact ⟨st', rfl, h⟩

/-- Data for the concrete C5 instance: three big-endian words 1, 0, 2. -/
def cdataC5 : List Nat := [0, 0, 0, 1, 0, 0, 0, 0, 0, 0, 0, 2]

/-- `R_MIPS_HI16` against symbol `g`, implicit addend, at offset 0. -/
def rhC5 : RawReloc := ⟨true, .hi16, "g", 0⟩

/-- `R_MIPS_26` against symbol `f`, implicit addend, at offset 4. -/
def r26C5 : RawReloc := ⟨true, .mips26, "f", 0⟩

/-- `R_MIPS_LO16` against symbol `g`, implicit addend, at offset 8. -/
def rlC5 : RawReloc := ⟨true, .lo16, "g", 0⟩

/-- The relocation map `get_reloc_data` produces on the C5 instance:
the `R_MIPS_26` at offset 4 records its own target, and the HI16/LO16 pair
at offsets 0 and 8 combines `(1 << 16) + 2 = 65538` and records it at both
sites, the intervening `R_MIPS_26` notwithstanding. -/
def mC5 : Nat → Option CoddogRel :=
  relUpdate
    (relUpdate (relUpdate (fun _ => none) 4 (CoddogRel.SymbolTarget "f" 0))
      0 (CoddogRel.SymbolTarget "g" 65538))
    8 (CoddogRel.SymbolTarget "g" 65538)

theorem mC5_fold :
    get_reloc_data_mips .big cdataC5
      ([] ++ (0, rhC5) :: [(4, r26C5)] ++ (8, rlC5) :: []) = some mC5 := rfl

/-- The clearing clause of C5 as stated: ANY intervening relocation of a kind
other than HI16 or LO16 (here the record at address `b`, processed between the
HI16 at address `a` and the LO16 at address `c`) clears the pending HI16, so
the HI16 site is never paired and receives no entry.  The side conditions make
"never paired" observable as `m a = none`: no other record writes address `a`
and no earlier LO16 consumes the pending HI16. -/
def hi16ClearingClaim : Prop :=
  ∀ (e : Endianness) (data : List Nat) (mid1 mid2 post : List (Nat × RawReloc))
    (a b c : Nat) (rh rj rl : RawReloc) (m : Nat → Option CoddogRel),
    rh.kind = .hi16 → rh.hasImplicitAddend = true →
    rj.kind ≠ .hi16 → rj.kind ≠ .lo16 → rj.hasImplicitAddend = true →
    rl.kind = .lo16 → rl.hasImplicitAddend = true →
    (∀ ar ∈ mid1, ar.2.kind ≠ .lo16 ∧ ar.1 ≠ a) →
    (∀ ar ∈ mid2, ar.2.kind ≠ .lo16 ∧ ar.1 ≠ a) →
    b ≠ a → c ≠ a → (∀ ar ∈ post, ar.1 ≠ a) →
    get_reloc_data_mips e data
      ((a, rh) :: mid1 ++ (b, rj) :: mid2 ++ (c, rl) :: post) = some m →
    m a = none

/-- C5 is refuted on its clearing clause: an intervening `R_MIPS_26` does NOT
clear the pending HI16 — in `get_reloc_data` only the wildcard match arm
resets `last_hi`, while the `R_MIPS_26` arm records its own target and leaves
`last_hi` intact — so the later LO16 still pairs with the HI16 across the
`R_MIPS_26`, and the HI16 site at address 0 receives the full addend 65538
instead of nothing. -/
theorem hi16_clearing_counterexample : ¬ hi16ClearingClaim := by
  intro h
  have hres := h .big cdataC5 [] [] [] 0 4 8 rhC5 r26C5 rlC5 mC5
    rfl rfl (by decide) (by decide) rfl rfl rfl
    (by simp) (by simp) (by decide) (by decide) (by simp) mC5_fold
  exact absurd hres (by decide)

/-- **C5** (amended).  In MIPS relocation canonicalization, processing a
section's relocation records in order: (Part A) a pending `R_MIPS_HI16`
addend is combined with the next `R_MIPS_LO16`'s sign-extended 16-bit addend
as `(hi16_addend << 16) + sign_extend(lo)` in wrapping `i32` arithmetic, and
the resulting full addend is recorded for both the HI16 site's address and
the LO16 site's address — and the pairing survives intervening `R_MIPS_26`
records and records without implicit addends, which do NOT clear the pending
HI16; (Part B) an intervening implicit-addend relocation of one of the
wildcard kinds (anything other than HI16, LO16, or `R_MIPS_26`) does clear
the pending HI16, so the HI16 site receives no entry. -/
theorem mips_hi16_pairing :
    (∀ (e : Endianness) (data : List Nat)
      (pre mid post : List (Nat × RawReloc)) (a c : Nat) (rh rl : RawReloc)
      (m : Nat → Option CoddogRel),
      rh.kind = .hi16 → rh.hasImplicitAddend = true →
      rl.kind = .lo16 → rl.hasImplicitAddend = true →
      (∀ ar ∈ mid, ar.2.hasImplicitAddend = false ∨ ar.2.kind = .mips26) →
      (∀ ar ∈ post, ar.1 ≠ a ∧ ar.1 ≠ c) →
      get_reloc_data_mips e data
        (pre ++ (a, rh) :: mid ++ (c, rl) :: post) = some m →
      ∃ wa wc, readWordAt e data a = some wa ∧ readWordAt e data c = some wc ∧
        m a = some (CoddogRel.SymbolTarget rl.targetName
          (i32wrap (i32wrap ((wa % 65536) * 65536) + i16sext (wc % 65536)))) ∧
        m c = some (CoddogRel.SymbolTarget rl.targetName
          (i32wrap (i32wrap ((wa % 65536) * 65536) + i16sext (wc % 65536))))) ∧
    (∀ (e : Endianness) (data : List Nat) (mid1 rest : List (Nat × RawReloc))
      (a b g : Nat) (rh ro : RawReloc) (m : Nat → Option CoddogRel),
      rh.kind = .hi16 → ro.kind = .other g → ro.hasImplicitAddend = true →
      (∀ ar ∈ mid1, ar.2.kind ≠ .lo16 ∧ ar.1 ≠ a) →
      b ≠ a → (∀ ar ∈ rest, ar.1 ≠ a) →
      get_reloc_data_mips e data
        ((a, rh) :: mid1 ++ (b, ro) :: rest) = some m →
      m a = none) := by
  constructor
  · intro e data pre mid post a c rh rl m hrhk hrhi hrlk hrli hmid hpost hm
    unfold get_reloc_data_mips at hm
    obtain ⟨stf, hfold, rfl⟩ := Option.map_eq_some'.mp hm
    rw [relocFold_append, relocFold_append] at hfold
    obtain ⟨stmid, hfold, hlast⟩ := relocMatch_eq_some _ _ _ hfold
    obtain ⟨st1, hpre, hmid1⟩ := relocMatch_eq_some _ _ _ hfold
    unfold relocFold at hmid1
    obtain ⟨st2, hstep, hmidf⟩ := relocMatch_eq_some _ _ _ hmid1
    obtain ⟨wa, hwa, rfl⟩ := relocStep_hi16 e data st1 a rh st2 hrhk hrhi hstep
    obtain ⟨hlh3, hlha3⟩ := relocFold_keep_pending e data mid _ stmid hmid hmidf
    unfold relocFold at hlast
    obtain ⟨st4, hstep2, hpostf⟩ := relocMatch_eq_some _ _ _ hlast
    obtain ⟨wc, hwc, hlh4, hacc_a, hacc_c⟩ :=
      relocStep_lo16_paired e data stmid c rl st4 a hrlk hrli hlh3 hstep2
    have hlast4 : ∀ hh, st4.lastHi = some hh → hh ≠ a := by
      intro hh hhh
      rw [hlh4] at hhh
      exact Option.noConfusion hhh
    have hstfa : stf.acc a = st4.acc a :=
      relocFold_stable e data post st4 stf a hpostf
        (fun ar har => (hpost ar har).1) hlast4
    have hlast4' : ∀ hh, st4.lastHi = some hh → hh ≠ c := by
      intro hh hhh
      rw [hlh4] at hhh
      exact Option.noConfusion hhh
    have hstfc : stf.acc c = st4.acc c :=
      relocFold_stable e data post st4 stf c hpostf
        (fun ar har => (hpost ar har).2) hlast4'
    refine ⟨wa, wc, hwa, hwc, ?_, ?_⟩
    · rw [hstfa, hacc_a, hlha3]
    · rw [hstfc, hacc_c, hlha3]
  · intro e data mid1 rest a b g rh ro m hrhk hrok hroi hmid1 hba hrest hm
    unfold get_reloc_data_mips at hm
    obtain ⟨stf, hfold, rfl⟩ := Option.map_eq_some'.mp hm
    rw [relocFold_append] at hfold
    obtain ⟨st3, hfold1, hfold2⟩ := relocMatch_eq_some _ _ _ hfold
    unfold relocFold at hfold1
    obtain ⟨st2, hstep, hmidf⟩ := relocMatch_eq_some _ _ _ hfold1
    have hacc2 : st2.acc = fun _ => none :=
      relocStep_hi16_acc e data _ a rh st2 hrhk hstep
    have hacc3 : st3.acc a = st2.acc a :=
      relocFold_stable_noLo e data mid1 st2 st3 a hmidf hmid1
    unfold relocFold at hfold2
    obtain ⟨st4, hstep2, hrestf⟩ := relocMatch_eq_some _ _ _ hfold2
    obtain rfl := relocStep_other e data st3 b g ro st4 hrok hroi hstep2
    have hstfa : stf.acc a = ({ st3 with lastHi := none } : RelState).acc a :=
      relocFold_stable e data rest { st3 with lastHi := none } stf a hrestf
        hrest (fun hh hhh => Option.noConfusion hhh)
    rw [hstfa]
    show st3.acc a = none
    rw [hacc3, hacc2]

/-- Witness for the amended C5 on the concrete instance: HI16 at 0 and LO16
at 8 pair across the `R_MIPS_26` at 4 and both sites receive the combined
addend. -/
theorem mips_hi16_pairing_witness :
    ∃ wa wc, readWordAt .big cdataC5 0 = some wa ∧
      readWordAt .big cdataC5 8 = some wc ∧
      mC5 0 = some (CoddogRel.SymbolTarget rlC5.targetName
        (i32wrap (i32wrap ((wa % 65536) * 65536) + i16sext (wc % 65536)))) ∧
      mC5 8 = some (CoddogRel.SymbolTarget rlC5.targetName
        (i32wrap (i32wrap ((wa % 65536) * 65536) + i16sext (wc % 65536)))) :=
  mips_hi16_pairing.1 .big cdataC5 [] [(4, r26C5)] [] 0 8 rhC5 rlC5 mC5
    rfl rfl rfl rfl
    (by intro ar har
        rw [List.mem_singleton] at har
        subst har
        exact Or.inr rfl)
    (by simp) mC5_fold

/-! ## Claim C7: ordering, paging and count of the windowed submatch query -/

/-- The ordering C7 claims for the query output: run length descending first,
then `project_id, source_id, symbol_id, start_query_pos, start_match_pos`. -/
def dbLenDescLe (r s : DBWindow) : Bool :=
  decide (s.length < r.length ∨ (r.length = s.length ∧
    (r.project_id < s.project_id ∨ (r.project_id = s.project_id ∧
      (r.source_id < s.source_id ∨ (r.source_id = s.source_id ∧
        (r.symbol_id < s.symbol_id ∨ (r.symbol_id = s.symbol_id ∧
          (r.start_query_pos < s.start_query_pos ∨
            (r.start_query_pos = s.start_query_pos ∧
              r.start_match_pos ≤ s.start_match_pos))))))))))

/-- The ordering clause of C7 as stated: the rows returned by
`db_query_windows_by_symbol_id` are globally sorted by run length
descending, then by the five id/position columns. -/
def submatchOrderClaim : Prop :=
  ∀ (tbl : List WRow) (symSource srcProject : Int → Int) (qid minSeqLen : Int),
    List.Pairwise (fun r s => dbLenDescLe r s = true)
      (db_query_windows_by_symbol_id tbl symSource srcProject qid minSeqLen)

/-- A `windows` table for the C7 instance: query symbol 1 has windows
`10, 11, 12` at positions 0..2; symbol 2 shares one window with it and
symbol 3 shares a two-window run. -/
def tbl7 : List WRow :=
  [⟨1, 0, 10⟩, ⟨1, 1, 11⟩, ⟨1, 2, 12⟩, ⟨2, 0, 10⟩, ⟨3, 0, 11⟩, ⟨3, 1, 12⟩]

/-- The first output row on `tbl7` (the length-1 run against symbol 2). -/
def dbw7 : DBWindow := ⟨2, 2, 2, 0, 0, 1⟩

/-- C7's ordering clause is false: the SQL `ORDER BY` of
`db_query_windows_by_symbol_id` is `project_id, source_id, symbol_id,
start_query_pos, start_match_pos` with no `length DESC` key, so on `tbl7`
(with identity source/project joins) the length-1 run of symbol 2 precedes
the length-2 run of symbol 3. -/
theorem submatch_order_counterexample : ¬ submatchOrderClaim := by
  intro h
  exact absurd (h tbl7 (fun x => x) (fun x => x) 1 1) (by decide)

theorem dbRowLe_total (r s : DBWindow) :
    dbRowLe r s = true ∨ dbRowLe s r = true := by
  simp only [dbRowLe, decide_eq_true_eq]
  omega

theorem dbRowLe_trans (a b c : DBWindow) (hab : dbRowLe a b = true)
    (hbc : dbRowLe b c = true) : dbRowLe a c = true := by
  simp only [dbRowLe, decide_eq_true_eq] at hab hbc ⊢
  omega

theorem intRunsGo_ne_nil :
    ∀ (xs : List Int) (prev : Int) (cur : List Int), cur ≠ [] →
      ∀ g ∈ intRunsGo prev cur xs, g ≠ [] := by
  intro xs
  induction xs with
  | nil =>
    intro prev cur hc g hg
    rw [List.mem_singleton.mp hg]
    exact hc
  | cons x xs ih =>
    intro prev cur hc g hg
    unfold intRunsGo at hg
    split at hg
    · exact ih x (cur ++ [x]) (by simp) g hg
    · rcases List.mem_cons.mp hg with rfl | hg'
      · exact hc
      · exact ih x [x] (by simp) g hg'

theorem intRuns_ne_nil (l : List Int) : ∀ g ∈ intRuns l, g ≠ [] := by
  cases l with
  | nil => intro g hg; exact absurd hg (List.not_mem_nil g)
  | cons x xs => exact intRunsGo_ne_nil xs x [x] (by simp)

theorem mem_potential_matches_ne (tbl : List WRow) (qid : Int)
    (p : Int × Int × Int) (hp : p ∈ potential_matches tbl qid) : p.1 ≠ qid := by
  unfold potential_matches at hp
  obtain ⟨a, _, hpa⟩ := List.mem_flatMap.mp hp
  split at hpa
  · rename_i haq
    obtain ⟨b, hb, hbp⟩ := List.mem_map.mp hpa
    obtain ⟨hbt, hbpred⟩ := List.mem_filter.mp hb
    simp only [decide_eq_true_eq] at hbpred
    rw [← hbp, ← haq]
    exact fun hc => hbpred.2 hc.symm
  · exact absurd hpa (List.not_mem_nil p)

theorem mem_runRows (tbl : List WRow) (symSource srcProject : Int → Int)
    (qid : Int) (r : DBWindow) (hr : r ∈ runRows tbl symSource srcProject qid) :
    r.symbol_id ≠ qid ∧ r.source_id = symSource r.symbol_id ∧
      r.project_id = srcProject (symSource r.symbol_id) ∧ 1 ≤ r.length := by
  unfold runRows at hr
  obtain ⟨key, hkey, hrk⟩ := List.mem_flatMap.mp hr
  obtain ⟨g, hg, hgr⟩ := List.mem_map.mp hrk
  have hgne : g ≠ [] := intRuns_ne_nil _ g hg
  have hk1 : key.1 ≠ qid := by
    unfold diagKeys at hkey
    obtain ⟨p, hp, hpk⟩ := List.mem_map.mp (List.mem_dedup.mp hkey)
    have := mem_potential_matches_ne tbl qid p hp
    rw [← hpk]
    exact this
  subst hgr
  refine ⟨hk1, rfl, rfl, ?_⟩
  show 1 ≤ g.length
  cases g with
  | nil => exact absurd rfl hgne
  | cons x xs => simp

/-- **C7** (amended).  `db_query_windows_by_symbol_id` returns ALL surviving
runs in one list — the function takes no page or page-size argument, emits no
single page, and returns no total count — and its `ORDER BY` has no
length-descending key: the output is sorted by `project_id, source_id,
symbol_id, start_query_pos, start_match_pos` only.  Every returned row does
have `length ≥ min_seq_len`, belongs to a symbol other than the query symbol,
merges at least one window, and carries the source id of its symbol and the
project id of that source. -/
theorem db_query_windows_properties (tbl : List WRow)
    (symSource srcProject : Int → Int) (qid minSeqLen : Int) :
    List.Pairwise (fun r s => dbRowLe r s = true)
      (db_query_windows_by_symbol_id tbl symSource srcProject qid minSeqLen) ∧
    ∀ r ∈ db_query_windows_by_symbol_id tbl symSource srcProject qid minSeqLen,
      minSeqLen ≤ (r.length : Int) ∧ r.symbol_id ≠ qid ∧
      r.source_id = symSource r.symbol_id ∧
      r.project_id = srcProject (symSource r.symbol_id) ∧ 1 ≤ r.length := by
  constructor
  · haveI : IsTotal DBWindow (fun r s => dbRowLe r s = true) :=
      ⟨dbRowLe_total⟩
    haveI : IsTrans DBWindow (fun r s => dbRowLe r s = true) :=
      ⟨dbRowLe_trans⟩
    exact List.sorted_insertionSort _ _
  · intro r hr
    unfold db_query_windows_by_symbol_id at hr
    rw [(List.perm_insertionSort _ _).mem_iff] at hr
    obtain ⟨hrun, hlen⟩ := List.mem_filter.mp hr
    simp only [decide_eq_true_eq] at hlen
    obtain ⟨h1, h2, h3, h4⟩ := mem_runRows tbl symSource srcProject qid r hrun
    exact ⟨hlen, h1, h2, h3, h4⟩

/-- Witness for the amended C7 on `tbl7`: the output is `dbRowLe`-sorted, and
its first row (the length-1 run against symbol 2) satisfies all the row
invariants with identity source/project joins. -/
theorem db_query_windows_properties_witness :
    List.Pairwise (fun r s => dbRowLe r s = true)
      (db_query_windows_by_symbol_id tbl7 (fun x => x) (fun x => x) 1 1) ∧
    ((1 : Int) ≤ (dbw7.length : Int) ∧ dbw7.symbol_id ≠ 1 ∧
      dbw7.source_id = dbw7.symbol_id ∧ dbw7.project_id = dbw7.symbol_id ∧
      1 ≤ dbw7.length) :=
  ⟨(db_query_windows_properties tbl7 (fun x => x) (fun x => x) 1 1).1,
    (db_query_windows_properties tbl7 (fun x => x) (fun x => x) 1 1).2 dbw7
      (by decide)⟩

end Coddog
